import Mathlib

/-!
Verification of the tide split-tree layout engine
(`crates/tide-layout/src/node.rs`, `crates/tide-layout/src/lib.rs`).

The source operates on `f32`; this development models the same algorithms
over exact rationals (`ℚ`), which is the idealized real arithmetic the
specification's "within floating-point tolerance" phrasing refers to.
The geometry types (`Rect`, `Size`, `Vec2`, `PaneId`, `SplitDirection`,
`DropZone`) live in the `tide-core` crate, which is not part of the
sources; they are modelled from the spec (§3, §6).

Naming: Rust `snake_case` names are kept.  The `ratio` field of `Node::Split`
is called `frac` here; the `MIN_RATIO` constant is called `min_ratio_floor`.
-/

/-- Modelled from the spec: a PaneId is an opaque process-wide-unique
positive integer (`u64` in the source; the sentinel used by `swap_panes`
is `u64::MAX`). -/
abbrev PaneId := ℕ

/-- Modelled from the spec: split axis. Horizontal splits left/right,
Vertical splits top/bottom. -/
inductive SplitDirection where
  | Horizontal
  | Vertical
deriving DecidableEq

/-- Modelled from the spec: drop zone for drag-and-drop placement. -/
inductive DropZone where
  | Top
  | Bottom
  | Left
  | Right
  | Center
deriving DecidableEq

/-- Modelled from the spec: axis-aligned rectangle (x, y, width, height)
in logical pixels. -/
structure Rect where
  x : ℚ
  y : ℚ
  width : ℚ
  height : ℚ
deriving DecidableEq

/-- Modelled from the spec: a window size. -/
structure Size where
  width : ℚ
  height : ℚ
deriving DecidableEq

/-- Modelled from the spec: a 2-d point (pointer position). -/
structure Vec2 where
  x : ℚ
  y : ℚ
deriving DecidableEq

/-- Modelled from the spec: the decoration-metrics record (`gap`,
`padding`, `tab_bar_height`) supplied by the theming/rendering layer
(§6); `PaneDecorations` in the absent tide-core crate. -/
structure PaneDecorations where
  gap : ℚ
  padding : ℚ
  tab_bar_height : ℚ
deriving DecidableEq

/-- The layout tree (`Node` in node.rs): either a terminal pane leaf or a
binary split.  The source's `ratio` field is called `frac`. -/
inductive Node where
  | Leaf (id : PaneId)
  | Split (direction : SplitDirection) (frac : ℚ) (left : Node) (right : Node)
deriving DecidableEq

/-- Source `split_rect` (node.rs): split a rect into two sub-rects based on
direction and ratio. -/
def split_rect (rect : Rect) (direction : SplitDirection) (frac : ℚ) : Rect × Rect :=
  match direction with
  | SplitDirection.Horizontal =>
      let left_width := rect.width * frac
      let right_width := rect.width - left_width
      (Rect.mk rect.x rect.y left_width rect.height,
       Rect.mk (rect.x + left_width) rect.y right_width rect.height)
  | SplitDirection.Vertical =>
      let top_height := rect.height * frac
      let bottom_height := rect.height - top_height
      (Rect.mk rect.x rect.y rect.width top_height,
       Rect.mk rect.x (rect.y + top_height) rect.width bottom_height)

/-- Source `Node::pane_ids` (node.rs), with the `&mut Vec` accumulator
returned as a list: collect all leaf PaneIds in this subtree. -/
def Node.pane_ids : Node → List PaneId
  | Node.Leaf id => [id]
  | Node.Split _ _ left right => left.pane_ids ++ right.pane_ids

/-- Source `Node::compute_rects` (node.rs), with the `&mut Vec` accumulator
returned as a list: compute the rect for every leaf pane. -/
def Node.compute_rects : Node → Rect → List (PaneId × Rect)
  | Node.Leaf id, rect => [(id, rect)]
  | Node.Split direction frac left right, rect =>
      let rects := split_rect rect direction frac
      left.compute_rects rects.1 ++ right.compute_rects rects.2

/-- Source `Node::count_chain_leaves` (node.rs): number of leaf panes
reachable through consecutive same-direction splits. -/
def Node.count_chain_leaves : Node → SplitDirection → ℕ
  | Node.Leaf _, _ => 1
  | Node.Split direction _ left right, dir =>
      if direction = dir then
        left.count_chain_leaves dir + right.count_chain_leaves dir
      else 1

/-- The re-equalized ratio `n_left as f32 / (n_left + n_right) as f32`
computed from the two children of a same-direction split. -/
def chain_eq_frac (left right : Node) (dir : SplitDirection) : ℚ :=
  ((left.count_chain_leaves dir : ℕ) : ℚ) /
    (((left.count_chain_leaves dir + right.count_chain_leaves dir : ℕ)) : ℚ)

/-- Source `Node::split_pane` (node.rs), state-passing: `some n'` models a
`true` return with the tree mutated to `n'`; `none` models `false` (the
source mutates nothing in that case). -/
def Node.split_pane : Node → PaneId → PaneId → SplitDirection → Option Node
  | Node.Leaf id, target, new_id, direction =>
      if id = target then
        some (Node.Split direction (1/2) (Node.Leaf target) (Node.Leaf new_id))
      else none
  | Node.Split dir frac left right, target, new_id, direction =>
      match left.split_pane target new_id direction with
      | some left' =>
          some (Node.Split dir
            (if dir = direction then chain_eq_frac left' right dir else frac) left' right)
      | none =>
          match right.split_pane target new_id direction with
          | some right' =>
              some (Node.Split dir
                (if dir = direction then chain_eq_frac left right' dir else frac) left right')
          | none => none

/-- Source `Node::remove_pane` (node.rs), state-passing.  `some (some n')`:
pane found, the node becomes `n'` (the source writes the child in place and
returns `Some(Some(self.clone()))`); `some none`: this very node is the leaf
to remove; `none`: pane absent, no mutation. -/
def Node.remove_pane : Node → PaneId → Option (Option Node)
  | Node.Leaf id, target =>
      if id = target then some none else none
  | Node.Split direction frac left right, target =>
      let dir := direction
      let left_old := left.count_chain_leaves dir
      match left.remove_pane target with
      | some (some node) =>
          some (some (Node.Split dir
            (if node.count_chain_leaves dir ≠ left_old then chain_eq_frac node right dir
             else frac) node right))
      | some none => some (some right)
      | none =>
          let right_old := right.count_chain_leaves dir
          match right.remove_pane target with
          | some (some node) =>
              some (some (Node.Split dir
                (if node.count_chain_leaves dir ≠ right_old then chain_eq_frac left node dir
                 else frac) left node))
          | some none => some (some left)
          | none => none

/-- Source `Node::insert_pane_at` (node.rs), state-passing like
`split_pane`: the caller chooses which side the new pane occupies. -/
def Node.insert_pane_at : Node → PaneId → PaneId → SplitDirection → Bool → Option Node
  | Node.Leaf id, target, new_pane, direction, insert_first =>
      if id = target then
        let pair := if insert_first then (Node.Leaf new_pane, Node.Leaf target)
                    else (Node.Leaf target, Node.Leaf new_pane)
        some (Node.Split direction (1/2) pair.1 pair.2)
      else none
  | Node.Split dir frac left right, target, new_pane, direction, insert_first =>
      match left.insert_pane_at target new_pane direction insert_first with
      | some left' =>
          some (Node.Split dir
            (if dir = direction then chain_eq_frac left' right dir else frac) left' right)
      | none =>
          match right.insert_pane_at target new_pane direction insert_first with
          | some right' =>
              some (Node.Split dir
                (if dir = direction then chain_eq_frac left right' dir else frac) left right')
          | none => none

/-- Source `Node::replace_pane_id` (node.rs): replace all occurrences of
`from` with `to` in leaf nodes. -/
def Node.replace_pane_id : Node → PaneId → PaneId → Node
  | Node.Leaf id, from_id, to_id =>
      if id = from_id then Node.Leaf to_id else Node.Leaf id
  | Node.Split dir frac left right, from_id, to_id =>
      Node.Split dir frac (left.replace_pane_id from_id to_id)
        (right.replace_pane_id from_id to_id)

/-- Source `Node::swap_panes` (node.rs): swap two pane IDs using the
`u64::MAX` sentinel for a 3-way swap. -/
def Node.swap_panes (n : Node) (a b : PaneId) : Node :=
  let sentinel : PaneId := 2 ^ 64 - 1
  ((n.replace_pane_id a sentinel).replace_pane_id b a).replace_pane_id sentinel b

/-- Source `Node::apply_drag` (node.rs): follow `path` to the addressed
split, recompute its ratio from the position within the rect at that level,
clamped to `[min_ratio, 1 - min_ratio]`. -/
def Node.apply_drag : Node → Rect → List Bool → Vec2 → ℚ → Node
  | Node.Leaf id, _, _, _, _ => Node.Leaf id
  | Node.Split direction _ left right, rect, [], position, min_r =>
      let new_frac := match direction with
        | SplitDirection.Horizontal => (position.x - rect.x) / rect.width
        | SplitDirection.Vertical => (position.y - rect.y) / rect.height
      Node.Split direction (max min_r (min new_frac (1 - min_r))) left right
  | Node.Split direction frac left right, rect, b :: rest, position, min_r =>
      let rects := split_rect rect direction frac
      if b then
        Node.Split direction frac left (right.apply_drag rects.2 rest position min_r)
      else
        Node.Split direction frac (left.apply_drag rects.1 rest position min_r) right

/-- Source `Node::find_border_at` (node.rs), with the `best` accumulator
threaded through and returned: the globally closest in-range border and the
left/right path to reach it. -/
def Node.find_border_at : Node → Rect → Vec2 →
    Option (ℚ × List Bool) → List Bool → Option (ℚ × List Bool)
  | Node.Leaf _, _, _, best, _ => best
  | Node.Split direction frac left right, rect, position, best, path =>
      let border_pos := match direction with
        | SplitDirection.Horizontal => rect.x + rect.width * frac
        | SplitDirection.Vertical => rect.y + rect.height * frac
      let dist := match direction with
        | SplitDirection.Horizontal => |position.x - border_pos|
        | SplitDirection.Vertical => |position.y - border_pos|
      let in_range : Bool := match direction with
        | SplitDirection.Horizontal =>
            decide (position.y ≥ rect.y ∧ position.y ≤ rect.y + rect.height)
        | SplitDirection.Vertical =>
            decide (position.x ≥ rect.x ∧ position.x ≤ rect.x + rect.width)
      let beats : Bool := match best with
        | some best' => decide (dist < best'.1)
        | none => true
      let best1 := if in_range && beats then some (dist, path) else best
      let rects := split_rect rect direction frac
      let best2 := left.find_border_at rects.1 position best1 (path ++ [false])
      right.find_border_at rects.2 position best2 (path ++ [true])

/-- Source constants `MIN_COLS`/`MIN_ROWS` (node.rs): minimum number of
columns/rows a pane must contain. -/
def MIN_COLS : ℚ := 4

/-- Source constant `MIN_ROWS` (node.rs). -/
def MIN_ROWS : ℚ := 2

/-- Source `min_ratio_for_direction` (node.rs): the minimum ratio for a
split so that neither child is smaller than MIN_COLS/MIN_ROWS cells,
clamped to [0.05, 0.45]; 0.1 for degenerate rects.  `x.clamp(lo, hi)` is
written `max lo (min x hi)`. -/
def min_ratio_for_direction (rect : Rect) (cell_size : Size)
    (decorations : PaneDecorations) (direction : SplitDirection) : ℚ :=
  let half_gap := decorations.gap / 2
  match direction with
  | SplitDirection.Horizontal =>
      if rect.width < 1 then 1/10
      else
        let min_tiling_w := MIN_COLS * cell_size.width + half_gap +
          2 * decorations.padding
        max (1/20) (min (min_tiling_w / rect.width) (9/20))
  | SplitDirection.Vertical =>
      if rect.height < 1 then 1/10
      else
        let min_tiling_h := MIN_ROWS * cell_size.height + half_gap +
          decorations.tab_bar_height + decorations.padding
        max (1/20) (min (min_tiling_h / rect.height) (9/20))

/-- Source `Node::snap_ratios` (node.rs): snap split ratios so the
left/top child's content area aligns to whole cells, then recurse with
the updated ratio.  The early `return` for degenerate totals keeps the
whole subtree unchanged.  f32 `round()` rounds half away from zero while
ℚ `round` rounds half up; they differ only at negative half-integer ties
and the snapped ratio is clamped either way. -/
def Node.snap_ratios : Node → Rect → Size → PaneDecorations → Node
  | Node.Leaf id, _, _, _ => Node.Leaf id
  | Node.Split direction frac left right, rect, cell_size, decorations =>
      let half_gap := decorations.gap / 2
      match direction with
      | SplitDirection.Horizontal =>
          let total := rect.width
          if total < 1 ∨ cell_size.width < 1 then
            Node.Split direction frac left right
          else
            let left_tiling_w := total * frac
            let content_w := left_tiling_w - half_gap - 2 * decorations.padding
            let frac2 :=
              if content_w > 0 then
                let snapped_w :=
                  ((round (content_w / cell_size.width) : ℤ) : ℚ) * cell_size.width
                let new_tiling_w := snapped_w + half_gap + 2 * decorations.padding
                let new_ratio := new_tiling_w / total
                let min_r := min_ratio_for_direction rect cell_size decorations
                  SplitDirection.Horizontal
                max min_r (min new_ratio (1 - min_r))
              else frac
            let rects := split_rect rect SplitDirection.Horizontal frac2
            Node.Split direction frac2
              (left.snap_ratios rects.1 cell_size decorations)
              (right.snap_ratios rects.2 cell_size decorations)
      | SplitDirection.Vertical =>
          let total := rect.height
          if total < 1 ∨ cell_size.height < 1 then
            Node.Split direction frac left right
          else
            let left_tiling_h := total * frac
            let content_h := left_tiling_h - half_gap -
              decorations.tab_bar_height - decorations.padding
            let frac2 :=
              if content_h > 0 then
                let snapped_h :=
                  ((round (content_h / cell_size.height) : ℤ) : ℚ) * cell_size.height
                let new_tiling_h := snapped_h + half_gap +
                  decorations.tab_bar_height + decorations.padding
                let new_ratio := new_tiling_h / total
                let min_r := min_ratio_for_direction rect cell_size decorations
                  SplitDirection.Vertical
                max min_r (min new_ratio (1 - min_r))
              else frac
            let rects := split_rect rect SplitDirection.Vertical frac2
            Node.Split direction frac2
              (left.snap_ratios rects.1 cell_size decorations)
              (right.snap_ratios rects.2 cell_size decorations)

/-- The `0.5` tolerance used throughout `try_split` (`let eps = 0.5`). -/
def layout_eps : ℚ := 1/2

/-- The leading coordinate of a rect along a split axis. -/
def dir_lead (d : SplitDirection) (r : Rect) : ℚ :=
  match d with
  | SplitDirection.Horizontal => r.x
  | SplitDirection.Vertical => r.y

/-- The extent of a rect along a split axis. -/
def dir_extent (d : SplitDirection) (r : Rect) : ℚ :=
  match d with
  | SplitDirection.Horizontal => r.width
  | SplitDirection.Vertical => r.height

/-- The trailing edge of a rect along a split axis (right edge for
Horizontal, bottom edge for Vertical), the candidate coordinates of
`try_split`. -/
def trailing_edge (d : SplitDirection) (r : Rect) : ℚ :=
  match d with
  | SplitDirection.Horizontal => r.x + r.width
  | SplitDirection.Vertical => r.y + r.height

/-- The partition loop inside `try_split` for one candidate `split_pos`:
classifies every pane as entirely before / entirely after the line,
`none` when some pane straddles it (the source sets `clean = false` and
breaks). -/
def partition_at (direction : SplitDirection) (split_pos : ℚ) :
    List (PaneId × Rect) → Option (List (PaneId × Rect) × List (PaneId × Rect))
  | [] => some ([], [])
  | p :: rest =>
      let lo := match direction with
        | SplitDirection.Horizontal => p.2.x
        | SplitDirection.Vertical => p.2.y
      let hi := match direction with
        | SplitDirection.Horizontal => p.2.x + p.2.width
        | SplitDirection.Vertical => p.2.y + p.2.height
      if hi ≤ split_pos + layout_eps then
        (partition_at direction split_pos rest).map (fun g => (p :: g.1, g.2))
      else if lo ≥ split_pos - layout_eps then
        (partition_at direction split_pos rest).map (fun g => (g.1, p :: g.2))
      else none

/-- One iteration of `try_split`'s candidate collection: push the pane's
trailing edge unless it coincides with the bounding-box edge (within
`layout_eps`) or duplicates an existing candidate (within `layout_eps`). -/
def candidate_step (direction : SplitDirection) (max_e : ℚ)
    (cands : List ℚ) (p : PaneId × Rect) : List ℚ :=
  let edge := trailing_edge direction p.2
  if |edge - max_e| > layout_eps then
    if cands.any (fun c => |c - edge| < layout_eps) then cands
    else cands ++ [edge]
  else cands

/-- The candidate collection loop of `try_split`. -/
def collect_candidates (direction : SplitDirection) (max_e : ℚ)
    (pane_rects : List (PaneId × Rect)) : List ℚ :=
  pane_rects.foldl (candidate_step direction max_e) []

/-- The candidate loop of `try_split`: first candidate with a clean
partition and two non-empty groups wins; the returned ratio is
`(split_pos - bb_min) / (bb_max - bb_min)`. -/
def first_clean_split (pane_rects : List (PaneId × Rect)) (direction : SplitDirection)
    (bb_min bb_max : ℚ) :
    List ℚ → Option (List (PaneId × Rect) × List (PaneId × Rect) × ℚ)
  | [] => none
  | split_pos :: more =>
      match partition_at direction split_pos pane_rects with
      | some groups =>
          if groups.1 ≠ [] ∧ groups.2 ≠ [] then
            some (groups.1, groups.2, (split_pos - bb_min) / (bb_max - bb_min))
          else first_clean_split pane_rects direction bb_min bb_max more
      | none => first_clean_split pane_rects direction bb_min bb_max more

/-- Source `try_split` (node.rs): try to find a clean split along the given
axis.  The source seeds the bounding-box folds with `f32::MAX`/`f32::MIN`;
since the list is non-empty here the fold is seeded with the first pane's
values, which is the same fold. -/
def try_split (pane_rects : List (PaneId × Rect)) (direction : SplitDirection) :
    Option (List (PaneId × Rect) × List (PaneId × Rect) × ℚ) :=
  match pane_rects with
  | [] => none
  | [_] => none
  | p0 :: rest =>
      let min_x := rest.foldl (fun m p => min m p.2.x) p0.2.x
      let min_y := rest.foldl (fun m p => min m p.2.y) p0.2.y
      let max_x := rest.foldl (fun m p => max m (p.2.x + p.2.width)) (p0.2.x + p0.2.width)
      let max_y := rest.foldl (fun m p => max m (p.2.y + p.2.height)) (p0.2.y + p0.2.height)
      let max_e := match direction with
        | SplitDirection.Horizontal => max_x
        | SplitDirection.Vertical => max_y
      let candidates := collect_candidates direction max_e (p0 :: rest)
      let bb_min := match direction with
        | SplitDirection.Horizontal => min_x
        | SplitDirection.Vertical => min_y
      first_clean_split (p0 :: rest) direction bb_min max_e candidates

/-- Recursion core of `build_tree_from_rects`, made structural on a fuel
argument.  `try_split` returns two non-empty groups whose lengths sum to
the input's length, so with fuel = input length the `0` case is never
reached (see `build_tree_fuel_isSome`); the function then agrees with the
source's native recursion. -/
def build_tree_fuel : ℕ → List (PaneId × Rect) → SplitDirection → Option Node
  | 0, _, _ => none
  | _ + 1, [], _ => none
  | _ + 1, [p], _ => some (Node.Leaf p.1)
  | fuel + 1, p1 :: p2 :: rest, primary =>
      let pane_rects := p1 :: p2 :: rest
      let secondary := match primary with
        | SplitDirection.Horizontal => SplitDirection.Vertical
        | SplitDirection.Vertical => SplitDirection.Horizontal
      match try_split pane_rects primary with
      | some (left_group, right_group, frac) =>
          match build_tree_fuel fuel left_group primary,
                build_tree_fuel fuel right_group primary with
          | some left, some right => some (Node.Split primary frac left right)
          | _, _ => none
      | none =>
          match try_split pane_rects secondary with
          | some (left_group, right_group, frac) =>
              match build_tree_fuel fuel left_group primary,
                    build_tree_fuel fuel right_group primary with
              | some left, some right => some (Node.Split secondary frac left right)
              | _, _ => none
          | none =>
              some ((p2 :: rest).foldl
                (fun node p => Node.Split primary (1/2) node (Node.Leaf p.1))
                (Node.Leaf p1.1))

/-- Source `build_tree_from_rects` (node.rs): build a tree from
(PaneId, Rect) pairs, preferring splits along the primary direction. -/
def build_tree_from_rects (pane_rects : List (PaneId × Rect))
    (primary : SplitDirection) : Option Node :=
  build_tree_fuel pane_rects.length pane_rects primary

/-- Source constant `MIN_RATIO` (lib.rs): minimum split ratio applied by
border drags. -/
def min_ratio_floor : ℚ := 1/10

/-- Source constant `BORDER_HIT_THRESHOLD` (lib.rs). -/
def border_hit_threshold : ℚ := 8

/-- Source `SplitLayout` (lib.rs). -/
structure SplitLayout where
  root : Option Node
  next_id : PaneId
  active_drag : Option (List Bool)
  last_window_size : Option Size
deriving DecidableEq

/-- Source `SplitLayout::new`. -/
def SplitLayout.new : SplitLayout :=
  { root := none, next_id := 1, active_drag := none, last_window_size := none }

/-- Source `SplitLayout::with_initial_pane`: a layout with a single initial
pane, returning both the layout and the PaneId. -/
def SplitLayout.with_initial_pane : SplitLayout × PaneId :=
  ({ root := some (Node.Leaf 1), next_id := 2, active_drag := none,
     last_window_size := none }, 1)

/-- Source `SplitLayout::pane_ids`. -/
def SplitLayout.pane_ids (l : SplitLayout) : List PaneId :=
  match l.root with
  | none => []
  | some root => root.pane_ids

/-- The window rect `Rect::new(0.0, 0.0, ws.width, ws.height)` used by the
facade. -/
def window_rect (window_size : Size) : Rect :=
  Rect.mk 0 0 window_size.width window_size.height

/-- Source `LayoutEngine::compute` for `SplitLayout` (lib.rs); the unused
`_panes` and `_focused` arguments are omitted. -/
def SplitLayout.compute (l : SplitLayout) (window_size : Size) : List (PaneId × Rect) :=
  match l.root with
  | none => []
  | some root => root.compute_rects (window_rect window_size)

/-- Source `SplitLayout::equalize_root_chain`. -/
def SplitLayout.equalize_root_chain (l : SplitLayout) : SplitLayout :=
  match l.root with
  | some (Node.Split direction _ left right) =>
      let new_root := Node.Split direction (chain_eq_frac left right direction) left right
      { l with root := some new_root }
  | _ => l

/-- Source `SplitLayout::snap_ratios_to_cells` (lib.rs): snap all split
ratios so that pane content areas align to cell boundaries. -/
def SplitLayout.snap_ratios_to_cells (l : SplitLayout) (window_size : Size)
    (cell_size : Size) (decorations : PaneDecorations) : SplitLayout :=
  match l.root with
  | some root =>
      let new_root := root.snap_ratios (window_rect window_size) cell_size decorations
      { l with root := some new_root }
  | none => l

/-- The `(direction, insert_first)` derived from a drop zone.  Every use
site in lib.rs marks `Center` `unreachable!()` except `simulate_drop`,
which maps it to `(Horizontal, false)`; that value is used here and is
never reached from the operations below on a `Center` zone. -/
def zone_direction : DropZone → SplitDirection × Bool
  | DropZone.Top => (SplitDirection.Vertical, true)
  | DropZone.Bottom => (SplitDirection.Vertical, false)
  | DropZone.Left => (SplitDirection.Horizontal, true)
  | DropZone.Right => (SplitDirection.Horizontal, false)
  | DropZone.Center => (SplitDirection.Horizontal, false)

/-- Source `SplitLayout::insert_pane` (lib.rs). -/
def SplitLayout.insert_pane (l : SplitLayout) (target new_pane : PaneId)
    (direction : SplitDirection) (insert_first : Bool) : Bool × SplitLayout :=
  match l.root with
  | some root =>
      match root.insert_pane_at target new_pane direction insert_first with
      | some new_root => (true, { l with root := some new_root })
      | none => (false, l)
  | none => (true, { l with root := some (Node.Leaf new_pane) })

/-- Source `SplitLayout::insert_at_root` (lib.rs). -/
def SplitLayout.insert_at_root (l : SplitLayout) (new_pane : PaneId)
    (zone : DropZone) : Bool × SplitLayout :=
  if zone = DropZone.Center then (false, l)
  else
    let dirs := zone_direction zone
    match l.root with
    | some existing =>
        let pair := if dirs.2 then (Node.Leaf new_pane, existing)
                    else (existing, Node.Leaf new_pane)
        (true, SplitLayout.equalize_root_chain
          { l with root := some (Node.Split dirs.1 (1/2) pair.1 pair.2) })
    | none => (true, { l with root := some (Node.Leaf new_pane) })

/-- Source `SplitLayout::move_pane_to_root` (lib.rs). -/
def SplitLayout.move_pane_to_root (l : SplitLayout) (source : PaneId)
    (zone : DropZone) : Bool × SplitLayout :=
  if zone = DropZone.Center then (false, l)
  else match l.root with
  | none => (false, l)
  | some root =>
      match root.remove_pane source with
      | some (some replacement) =>
          let dirs := zone_direction zone
          let pair := if dirs.2 then (Node.Leaf source, replacement)
                      else (replacement, Node.Leaf source)
          (true, SplitLayout.equalize_root_chain
            { l with root := some (Node.Split dirs.1 (1/2) pair.1 pair.2) })
      | some none => (false, { l with root := some (Node.Leaf source) })
      | none => (false, l)

/-- Source `SplitLayout::move_pane` (lib.rs): `Center` = sentinel swap
(no existence check), directional = remove source then insert next to
target. -/
def SplitLayout.move_pane (l : SplitLayout) (source target : PaneId)
    (zone : DropZone) : Bool × SplitLayout :=
  if source = target then (false, l)
  else match l.root with
  | none => (false, l)
  | some root =>
      if zone = DropZone.Center then
        (true, { l with root := some (root.swap_panes source target) })
      else
        match root.remove_pane source with
        | some (some replacement) =>
            let dirs := zone_direction zone
            match replacement.insert_pane_at target source dirs.1 dirs.2 with
            | some new_root => (true, { l with root := some new_root })
            | none => (false, { l with root := some replacement })
        | some none => (false, { l with root := some (Node.Leaf source) })
        | none => (false, l)

/-- The primary rebuild direction implied by a drop zone (`Left`/`Right` →
Horizontal, `Top`/`Bottom` → Vertical; `Center` is unreachable at the use
sites). -/
def zone_primary : DropZone → SplitDirection
  | DropZone.Left => SplitDirection.Horizontal
  | DropZone.Right => SplitDirection.Horizontal
  | _ => SplitDirection.Vertical

/-- Source `SplitLayout::restructure_move_to_root` (lib.rs). -/
def SplitLayout.restructure_move_to_root (l : SplitLayout) (source : PaneId)
    (zone : DropZone) (window_size : Size) : Bool × SplitLayout :=
  if zone = DropZone.Center then (false, l)
  else match l.root with
  | none => (false, l)
  | some _ =>
      let original_rects := l.compute window_size
      let remaining := original_rects.filter (fun p => p.1 ≠ source)
      if remaining = [] then (false, l)
      else
        match build_tree_from_rects remaining (zone_primary zone) with
        | none => (false, l)
        | some new_root =>
            SplitLayout.insert_at_root { l with root := some new_root } source zone

/-- Source `SplitLayout::restructure_move_pane` (lib.rs). -/
def SplitLayout.restructure_move_pane (l : SplitLayout) (source target : PaneId)
    (zone : DropZone) (window_size : Size) : Bool × SplitLayout :=
  if source = target then (false, l)
  else match l.root with
  | none => (false, l)
  | some root =>
      if zone = DropZone.Center then
        (true, { l with root := some (root.swap_panes source target) })
      else
        let original_rects := l.compute window_size
        let remaining := original_rects.filter (fun p => p.1 ≠ source)
        if remaining = [] then (false, l)
        else
          match build_tree_from_rects remaining (zone_primary zone) with
          | none => (false, l)
          | some new_root =>
              let dirs := zone_direction zone
              match new_root.insert_pane_at target source dirs.1 dirs.2 with
              | some new_root2 => (true, { l with root := some new_root2 })
              | none => (false, { l with root := some new_root })

/-- Source `SplitLayout::begin_drag` (lib.rs). -/
def SplitLayout.begin_drag (l : SplitLayout) (position : Vec2)
    (window_size : Size) : SplitLayout :=
  match l.root with
  | none => l
  | some root =>
      match root.find_border_at (window_rect window_size) position none [] with
      | some best =>
          if best.1 ≤ border_hit_threshold then
            { l with active_drag := some best.2, last_window_size := some window_size }
          else l
      | none => l

/-- Source `SplitLayout::end_drag` (lib.rs): clears the active drag path. -/
def SplitLayout.end_drag (l : SplitLayout) : SplitLayout :=
  { l with active_drag := none }

/-- The tail of `drag_border` (lib.rs): apply the drag along `drag_path`
when a root and a last window size exist. -/
def SplitLayout.drag_apply (l : SplitLayout) (drag_path : List Bool)
    (position : Vec2) : SplitLayout :=
  match l.root, l.last_window_size with
  | some root, some ws =>
      let new_root := root.apply_drag (window_rect ws) drag_path position min_ratio_floor
      { l with root := some new_root }
  | _, _ => l

/-- Source `LayoutEngine::drag_border` for `SplitLayout` (lib.rs): applies
the active drag, or auto-detects the nearest border from the last window
size and begins tracking it. -/
def SplitLayout.drag_border (l : SplitLayout) (position : Vec2) : SplitLayout :=
  match l.active_drag with
  | some drag_path => l.drag_apply drag_path position
  | none =>
      match l.root, l.last_window_size with
      | some root, some ws =>
          match root.find_border_at (window_rect ws) position none [] with
          | some best =>
              SplitLayout.drag_apply { l with active_drag := some best.2 } best.2 position
          | none => l
      | _, _ => l

/-- Source `LayoutEngine::split` for `SplitLayout` (lib.rs): always
allocates (`alloc_id` inlined) and returns the fresh id, even when the
target pane is absent. -/
def SplitLayout.split (l : SplitLayout) (pane : PaneId)
    (direction : SplitDirection) : PaneId × SplitLayout :=
  let new_id := l.next_id
  let l1 := { l with next_id := l.next_id + 1 }
  match l1.root with
  | some root =>
      match root.split_pane pane new_id direction with
      | some new_root => (new_id, { l1 with root := some new_root })
      | none => (new_id, l1)
  | none => (new_id, l1)

/-- Source `LayoutEngine::remove` for `SplitLayout` (lib.rs). -/
def SplitLayout.remove (l : SplitLayout) (pane : PaneId) : SplitLayout :=
  match l.root with
  | some root =>
      match root.remove_pane pane with
      | some (some replacement) => { l with root := some replacement }
      | some none => { l with root := none }
      | none => l
  | none => l

/-- Source `LayoutSnapshot` (lib.rs); `ratio` is called `frac` as in
`Node`. -/
inductive LayoutSnapshot where
  | Leaf (id : PaneId)
  | Split (direction : SplitDirection) (frac : ℚ) (left : LayoutSnapshot)
      (right : LayoutSnapshot)
deriving DecidableEq

/-- Source `SplitLayout::node_to_snapshot`. -/
def node_to_snapshot : Node → LayoutSnapshot
  | Node.Leaf id => LayoutSnapshot.Leaf id
  | Node.Split direction frac left right =>
      LayoutSnapshot.Split direction frac (node_to_snapshot left) (node_to_snapshot right)

/-- Source `SplitLayout::snapshot_to_node`. -/
def snapshot_to_node : LayoutSnapshot → Node
  | LayoutSnapshot.Leaf id => Node.Leaf id
  | LayoutSnapshot.Split direction frac left right =>
      Node.Split direction frac (snapshot_to_node left) (snapshot_to_node right)

/-- Source `SplitLayout::max_id_in_snapshot`. -/
def max_id_in_snapshot : LayoutSnapshot → PaneId
  | LayoutSnapshot.Leaf id => id
  | LayoutSnapshot.Split _ _ left right =>
      max (max_id_in_snapshot left) (max_id_in_snapshot right)

/-- Source `SplitLayout::snapshot`. -/
def SplitLayout.snapshot (l : SplitLayout) : Option LayoutSnapshot :=
  l.root.map node_to_snapshot

/-- Source `SplitLayout::from_snapshot`: `next_id` is one past the maximum
PaneId found. -/
def SplitLayout.from_snapshot (snap : LayoutSnapshot) : SplitLayout :=
  { root := some (snapshot_to_node snap), next_id := max_id_in_snapshot snap + 1,
    active_drag := none, last_window_size := none }

/-- Fold a sequence of same-direction `split` calls over a layout (the
"N consecutive same-direction split() calls" scenario of §8). -/
def split_seq (l : SplitLayout) (direction : SplitDirection) : List PaneId → SplitLayout
  | [] => l
  | t :: ts => split_seq (l.split t direction).2 direction ts

/-- The ratio stored at the root split, when the root is a split. -/
def root_split_frac (l : SplitLayout) : Option ℚ :=
  match l.root with
  | some (Node.Split _ frac _ _) => some frac
  | _ => none

/-- The ratio stored at the split reached by a left/right path. -/
def Node.frac_at : Node → List Bool → Option ℚ
  | Node.Leaf _, _ => none
  | Node.Split _ frac _ _, [] => some frac
  | Node.Split _ _ left right, b :: rest =>
      if b then right.frac_at rest else left.frac_at rest

/-- All split ratios occurring anywhere in the tree. -/
def Node.split_fracs : Node → List ℚ
  | Node.Leaf _ => []
  | Node.Split _ frac left right => frac :: (left.split_fracs ++ right.split_fracs)

/-- Every split ratio in the tree lies strictly between 0 and 1. -/
def Node.valid_fracs : Node → Prop
  | Node.Leaf _ => True
  | Node.Split _ frac left right =>
      (0 < frac ∧ frac < 1) ∧ left.valid_fracs ∧ right.valid_fracs

/-- Area of a rect. -/
def Rect.area (r : Rect) : ℚ := r.width * r.height

/-- Both extents of a rect are non-negative. -/
def Rect.nonneg (r : Rect) : Prop := 0 ≤ r.width ∧ 0 ≤ r.height

/-- Rect `a` lies inside rect `b`. -/
def Rect.inside (a b : Rect) : Prop :=
  b.x ≤ a.x ∧ a.x + a.width ≤ b.x + b.width ∧
  b.y ≤ a.y ∧ a.y + a.height ≤ b.y + b.height

/-- Two rects overlap: their interiors intersect in positive area. -/
def Rect.overlaps (a b : Rect) : Prop :=
  a.x < b.x + b.width ∧ b.x < a.x + a.width ∧
  a.y < b.y + b.height ∧ b.y < a.y + a.height

/-- Along a given axis, either every rect of the list has positive
extent, or every rect has zero extent and the same leading coordinate.
`compute_rects` output over a window with non-negative extents always has
this shape, and it is what keeps `try_split`'s reconstructed ratios
strictly inside (0, 1). -/
def uniform_axis (d : SplitDirection) (rects : List (PaneId × Rect)) : Prop :=
  (∀ p ∈ rects, 0 < dir_extent d p.2) ∨
  (∃ c, ∀ p ∈ rects, dir_extent d p.2 = 0 ∧ dir_lead d p.2 = c)

/-- Layouts reachable from an empty or single-pane layout by the public
mutating operations: split / remove / insert / move (plain and
restructuring) / cell snapping / snapshot restore and the drag protocol.
The restructuring moves recompute pane rects from the window size; they
are covered for windows with non-negative sizes (a physical window is
never negative). -/
inductive Reachable : SplitLayout → Prop
  | new : Reachable SplitLayout.new
  | initial : Reachable SplitLayout.with_initial_pane.1
  | split (p : PaneId) (d : SplitDirection) {l : SplitLayout} :
      Reachable l → Reachable (l.split p d).2
  | remove (p : PaneId) {l : SplitLayout} :
      Reachable l → Reachable (l.remove p)
  | insert_pane (t np : PaneId) (d : SplitDirection) (f : Bool) {l : SplitLayout} :
      Reachable l → Reachable (l.insert_pane t np d f).2
  | insert_at_root (np : PaneId) (z : DropZone) {l : SplitLayout} :
      Reachable l → Reachable (l.insert_at_root np z).2
  | move_pane (s t : PaneId) (z : DropZone) {l : SplitLayout} :
      Reachable l → Reachable (l.move_pane s t z).2
  | move_pane_to_root (s : PaneId) (z : DropZone) {l : SplitLayout} :
      Reachable l → Reachable (l.move_pane_to_root s z).2
  | begin_drag (pos : Vec2) (ws : Size) {l : SplitLayout} :
      Reachable l → Reachable (l.begin_drag pos ws)
  | drag_border (pos : Vec2) {l : SplitLayout} :
      Reachable l → Reachable (l.drag_border pos)
  | end_drag {l : SplitLayout} : Reachable l → Reachable l.end_drag
  | restructure_move_pane (s tp : PaneId) (z : DropZone) (ws : Size)
      {l : SplitLayout} : 0 ≤ ws.width → 0 ≤ ws.height → Reachable l →
      Reachable (l.restructure_move_pane s tp z ws).2
  | restructure_move_to_root (s : PaneId) (z : DropZone) (ws : Size)
      {l : SplitLayout} : 0 ≤ ws.width → 0 ≤ ws.height → Reachable l →
      Reachable (l.restructure_move_to_root s z ws).2
  | snap_ratios_to_cells (ws cs : Size) (dec : PaneDecorations)
      {l : SplitLayout} : Reachable l →
      Reachable (l.snap_ratios_to_cells ws cs dec)
  | from_snapshot (s : LayoutSnapshot) {l : SplitLayout} : Reachable l →
      l.snapshot = some s → Reachable (SplitLayout.from_snapshot s)

theorem count_chain_leaves_pos (n : Node) (dir : SplitDirection) :
    0 < n.count_chain_leaves dir := by
  induction n with
  | Leaf id => simp [Node.count_chain_leaves]
  | Split d frac left right ihl ihr =>
      simp only [Node.count_chain_leaves]
      split
      · omega
      · omega

theorem chain_eq_frac_bounds (left right : Node) (dir : SplitDirection) :
    0 < chain_eq_frac left right dir ∧ chain_eq_frac left right dir < 1 := by
  unfold chain_eq_frac
  have hl := count_chain_leaves_pos left dir
  have hr := count_chain_leaves_pos right dir
  constructor
  · apply div_pos
    · exact_mod_cast hl
    · push_cast
      have : (0:ℚ) < (left.count_chain_leaves dir : ℚ) := by exact_mod_cast hl
      have : (0:ℚ) < (right.count_chain_leaves dir : ℚ) := by exact_mod_cast hr
      linarith
  · rw [div_lt_one]
    · push_cast
      have : (0:ℚ) < (right.count_chain_leaves dir : ℚ) := by exact_mod_cast hr
      linarith
    · push_cast
      have h1 : (0:ℚ) < (left.count_chain_leaves dir : ℚ) := by exact_mod_cast hl
      have h2 : (0:ℚ) < (right.count_chain_leaves dir : ℚ) := by exact_mod_cast hr
      linarith

theorem reequalized_frac_bounds (c : Prop) [Decidable c] (left right : Node)
    (dir : SplitDirection) (frac : ℚ) (hf : 0 < frac ∧ frac < 1) :
    0 < (if c then chain_eq_frac left right dir else frac) ∧
      (if c then chain_eq_frac left right dir else frac) < 1 := by
  split
  · exact chain_eq_frac_bounds left right dir
  · exact hf

theorem valid_fracs_split_pane {n n' : Node} {target new_id : PaneId}
    {direction : SplitDirection} (hv : n.valid_fracs)
    (h : n.split_pane target new_id direction = some n') : n'.valid_fracs := by
  induction n generalizing n' with
  | Leaf id =>
      simp only [Node.split_pane] at h
      split at h
      · cases h
        exact ⟨⟨by norm_num, by norm_num⟩, trivial, trivial⟩
      · cases h
  | Split dir frac left right ihl ihr =>
      obtain ⟨hf, hvl, hvr⟩ := hv
      simp only [Node.split_pane] at h
      cases hL : left.split_pane target new_id direction with
      | some left' =>
          rw [hL] at h
          cases h
          exact ⟨reequalized_frac_bounds _ _ _ _ _ hf, ihl hvl hL, hvr⟩
      | none =>
          rw [hL] at h
          cases hR : right.split_pane target new_id direction with
          | some right' =>
              rw [hR] at h
              cases h
              exact ⟨reequalized_frac_bounds _ _ _ _ _ hf, hvl, ihr hvr hR⟩
          | none => rw [hR] at h; cases h

theorem valid_fracs_insert_pane_at {n n' : Node} {target new_pane : PaneId}
    {direction : SplitDirection} {insert_first : Bool} (hv : n.valid_fracs)
    (h : n.insert_pane_at target new_pane direction insert_first = some n') :
    n'.valid_fracs := by
  induction n generalizing n' with
  | Leaf id =>
      simp only [Node.insert_pane_at] at h
      split at h
      · cases h
        constructor
        · exact ⟨by norm_num, by norm_num⟩
        · cases insert_first <;> exact ⟨trivial, trivial⟩
      · cases h
  | Split dir frac left right ihl ihr =>
      obtain ⟨hf, hvl, hvr⟩ := hv
      simp only [Node.insert_pane_at] at h
      cases hL : left.insert_pane_at target new_pane direction insert_first with
      | some left' =>
          rw [hL] at h
          cases h
          exact ⟨reequalized_frac_bounds _ _ _ _ _ hf, ihl hvl hL, hvr⟩
      | none =>
          rw [hL] at h
          cases hR : right.insert_pane_at target new_pane direction insert_first with
          | some right' =>
              rw [hR] at h
              cases h
              exact ⟨reequalized_frac_bounds _ _ _ _ _ hf, hvl, ihr hvr hR⟩
          | none => rw [hR] at h; cases h

theorem valid_fracs_remove_pane {n n' : Node} {target : PaneId}
    (hv : n.valid_fracs) (h : n.remove_pane target = some (some n')) :
    n'.valid_fracs := by
  induction n generalizing n' with
  | Leaf id =>
      simp only [Node.remove_pane] at h
      split at h <;> cases h
  | Split dir frac left right ihl ihr =>
      obtain ⟨hf, hvl, hvr⟩ := hv
      simp only [Node.remove_pane] at h
      cases hL : left.remove_pane target with
      | some o =>
          rw [hL] at h
          cases o with
          | some node =>
              cases h
              exact ⟨reequalized_frac_bounds _ _ _ _ _ hf, ihl hvl hL, hvr⟩
          | none => cases h; exact hvr
      | none =>
          rw [hL] at h
          cases hR : right.remove_pane target with
          | some o =>
              rw [hR] at h
              cases o with
              | some node =>
                  cases h
                  exact ⟨reequalized_frac_bounds _ _ _ _ _ hf, hvl, ihr hvr hR⟩
              | none => cases h; exact hvl
          | none => rw [hR] at h; cases h

theorem valid_fracs_replace_pane_id {n : Node} (a b : PaneId)
    (hv : n.valid_fracs) : (n.replace_pane_id a b).valid_fracs := by
  induction n with
  | Leaf id =>
      simp only [Node.replace_pane_id]
      split <;> trivial
  | Split dir frac left right ihl ihr =>
      obtain ⟨hf, hvl, hvr⟩ := hv
      exact ⟨hf, ihl hvl, ihr hvr⟩

theorem valid_fracs_swap_panes {n : Node} (a b : PaneId)
    (hv : n.valid_fracs) : (n.swap_panes a b).valid_fracs := by
  unfold Node.swap_panes
  exact valid_fracs_replace_pane_id _ _
    (valid_fracs_replace_pane_id _ _ (valid_fracs_replace_pane_id _ _ hv))

theorem valid_fracs_apply_drag {n : Node} {rect : Rect} {path : List Bool}
    {position : Vec2} (hv : n.valid_fracs) :
    (n.apply_drag rect path position min_ratio_floor).valid_fracs := by
  induction n generalizing rect path with
  | Leaf id => exact trivial
  | Split dir frac left right ihl ihr =>
      obtain ⟨hf, hvl, hvr⟩ := hv
      cases path with
      | nil =>
          have hb : ∀ x : ℚ, 0 < max min_ratio_floor (min x (1 - min_ratio_floor)) ∧
              max min_ratio_floor (min x (1 - min_ratio_floor)) < 1 := by
            intro x
            constructor
            · have h0 : (0:ℚ) < min_ratio_floor := by norm_num [min_ratio_floor]
              exact lt_of_lt_of_le h0 (le_max_left _ _)
            · have h2 : min x (1 - min_ratio_floor) ≤ 1 - min_ratio_floor :=
                min_le_right _ _
              have h3 : max min_ratio_floor (min x (1 - min_ratio_floor)) ≤
                  max min_ratio_floor (1 - min_ratio_floor) :=
                max_le_max (le_refl _) h2
              have h4 : max min_ratio_floor (1 - min_ratio_floor) < 1 := by
                norm_num [min_ratio_floor]
              linarith
          exact ⟨hb _, hvl, hvr⟩
      | cons b rest =>
          simp only [Node.apply_drag]
          split
          · exact ⟨hf, hvl, ihr hvr⟩
          · exact ⟨hf, ihl hvl, hvr⟩

/-- The invariant carried through every public operation: whenever the
tree is non-empty, all its split ratios are strictly between 0 and 1. -/
def LayoutValid (l : SplitLayout) : Prop :=
  ∀ t, l.root = some t → t.valid_fracs

theorem layout_valid_equalize {l : SplitLayout} (h : LayoutValid l) :
    LayoutValid l.equalize_root_chain := by
  intro t ht
  unfold SplitLayout.equalize_root_chain at ht
  cases hr : l.root with
  | none => rw [hr] at ht; rw [hr] at ht; cases ht
  | some root =>
      cases root with
      | Leaf id => rw [hr] at ht; rw [hr] at ht; cases ht; exact h _ hr
      | Split dir frac left right =>
          rw [hr] at ht
          simp only [Option.some.injEq] at ht
          obtain ⟨_, hvl, hvr⟩ := h _ hr
          cases ht
          exact ⟨chain_eq_frac_bounds left right dir, hvl, hvr⟩

theorem layout_valid_split {l : SplitLayout} (h : LayoutValid l)
    (p : PaneId) (d : SplitDirection) : LayoutValid (l.split p d).2 := by
  intro t ht
  unfold SplitLayout.split at ht
  cases hr : l.root with
  | none => simp [hr] at ht
  | some root =>
      cases hs : root.split_pane p l.next_id d with
      | some new_root =>
          simp [hr, hs] at ht
          cases ht
          exact valid_fracs_split_pane (h _ hr) hs
      | none =>
          simp [hr, hs] at ht
          cases ht
          exact h _ hr

theorem layout_valid_remove {l : SplitLayout} (h : LayoutValid l)
    (p : PaneId) : LayoutValid (l.remove p) := by
  intro t ht
  unfold SplitLayout.remove at ht
  cases hr : l.root with
  | none => simp only [hr] at ht; exact Option.noConfusion ht
  | some root =>
      simp only [hr] at ht
      cases hs : root.remove_pane p with
      | some o =>
          cases o with
          | some replacement =>
              simp only [hs, Option.some.injEq] at ht
              cases ht
              exact valid_fracs_remove_pane (h _ hr) hs
          | none => simp only [hs] at ht; exact Option.noConfusion ht
      | none => simp only [hs] at ht; exact h t ht

theorem layout_valid_insert_pane {l : SplitLayout} (h : LayoutValid l)
    (target new_pane : PaneId) (d : SplitDirection) (f : Bool) :
    LayoutValid (l.insert_pane target new_pane d f).2 := by
  intro t ht
  unfold SplitLayout.insert_pane at ht
  cases hr : l.root with
  | none =>
      simp only [hr, Option.some.injEq] at ht
      cases ht
      trivial
  | some root =>
      simp only [hr] at ht
      cases hs : root.insert_pane_at target new_pane d f with
      | some new_root =>
          simp only [hs, Option.some.injEq] at ht
          cases ht
          exact valid_fracs_insert_pane_at (h _ hr) hs
      | none => simp only [hs] at ht; exact h t ht

theorem layout_valid_insert_at_root {l : SplitLayout} (h : LayoutValid l)
    (np : PaneId) (z : DropZone) : LayoutValid (l.insert_at_root np z).2 := by
  intro t ht
  unfold SplitLayout.insert_at_root at ht
  by_cases hz : z = DropZone.Center
  · rw [if_pos hz] at ht; exact h t ht
  · rw [if_neg hz] at ht
    cases hr : l.root with
    | none =>
        simp only [hr, Option.some.injEq] at ht
        cases ht
        trivial
    | some existing =>
        simp only [hr] at ht
        have hmid : LayoutValid { l with root := some (Node.Split (zone_direction z).1 (1/2)
            (if (zone_direction z).2 then (Node.Leaf np, existing)
             else (existing, Node.Leaf np)).1
            (if (zone_direction z).2 then (Node.Leaf np, existing)
             else (existing, Node.Leaf np)).2) } := by
          intro u hu
          simp only [Option.some.injEq] at hu
          cases hu
          refine ⟨⟨by norm_num, by norm_num⟩, ?_⟩
          cases hb : (zone_direction z).2 with
          | true => exact ⟨trivial, h _ hr⟩
          | false => exact ⟨h _ hr, trivial⟩
        exact layout_valid_equalize hmid t ht

theorem layout_valid_move_pane_to_root {l : SplitLayout} (h : LayoutValid l)
    (s : PaneId) (z : DropZone) : LayoutValid (l.move_pane_to_root s z).2 := by
  intro t ht
  unfold SplitLayout.move_pane_to_root at ht
  by_cases hz : z = DropZone.Center
  · rw [if_pos hz] at ht; exact h t ht
  · rw [if_neg hz] at ht
    cases hr : l.root with
    | none => simp only [hr] at ht; exact Option.noConfusion ht
    | some root =>
        simp only [hr] at ht
        cases hs : root.remove_pane s with
        | some o =>
            cases o with
            | some replacement =>
                simp only [hs] at ht
                have hrep : replacement.valid_fracs :=
                  valid_fracs_remove_pane (h _ hr) hs
                have hmid : LayoutValid { l with root := some (Node.Split
                      (zone_direction z).1 (1/2)
                      (if (zone_direction z).2 then (Node.Leaf s, replacement)
                       else (replacement, Node.Leaf s)).1
                      (if (zone_direction z).2 then (Node.Leaf s, replacement)
                       else (replacement, Node.Leaf s)).2) } := by
                  intro u hu
                  simp only [Option.some.injEq] at hu
                  cases hu
                  refine ⟨⟨by norm_num, by norm_num⟩, ?_⟩
                  cases hb : (zone_direction z).2 with
                  | true => exact ⟨trivial, hrep⟩
                  | false => exact ⟨hrep, trivial⟩
                exact layout_valid_equalize hmid t ht
            | none =>
                simp only [hs, Option.some.injEq] at ht
                cases ht
                trivial
        | none =>
            simp only [hs] at ht
            exact h t ht

theorem layout_valid_move_pane {l : SplitLayout} (h : LayoutValid l)
    (s tp : PaneId) (z : DropZone) : LayoutValid (l.move_pane s tp z).2 := by
  intro t ht
  unfold SplitLayout.move_pane at ht
  by_cases hst : s = tp
  · rw [if_pos hst] at ht; exact h t ht
  · rw [if_neg hst] at ht
    cases hr : l.root with
    | none => simp only [hr] at ht; exact Option.noConfusion ht
    | some root =>
        simp only [hr] at ht
        by_cases hz : z = DropZone.Center
        · rw [if_pos hz] at ht
          simp only [Option.some.injEq] at ht
          cases ht
          exact valid_fracs_swap_panes _ _ (h _ hr)
        · rw [if_neg hz] at ht
          cases hs : root.remove_pane s with
          | some o =>
              cases o with
              | some replacement =>
                  simp only [hs] at ht
                  have hrep : replacement.valid_fracs :=
                    valid_fracs_remove_pane (h _ hr) hs
                  cases hi : replacement.insert_pane_at tp s
                      (zone_direction z).1 (zone_direction z).2 with
                  | some new_root =>
                      simp only [hi, Option.some.injEq] at ht
                      cases ht
                      exact valid_fracs_insert_pane_at hrep hi
                  | none =>
                      simp only [hi, Option.some.injEq] at ht
                      cases ht
                      exact hrep
              | none =>
                  simp only [hs, Option.some.injEq] at ht
                  cases ht
                  trivial
          | none =>
              simp only [hs] at ht
              exact h t ht

theorem layout_valid_drag_apply {l : SplitLayout} (h : LayoutValid l)
    (drag_path : List Bool) (position : Vec2) :
    LayoutValid (l.drag_apply drag_path position) := by
  intro t ht
  unfold SplitLayout.drag_apply at ht
  cases hr : l.root with
  | none => simp only [hr] at ht; exact Option.noConfusion ht
  | some root =>
      cases hw : l.last_window_size with
      | none =>
          simp only [hr, hw] at ht
          injection ht with hte
          subst hte
          exact h _ hr
      | some ws =>
          simp only [hr, hw, Option.some.injEq] at ht
          cases ht
          exact valid_fracs_apply_drag (h _ hr)

theorem layout_valid_drag_border {l : SplitLayout} (h : LayoutValid l)
    (position : Vec2) : LayoutValid (l.drag_border position) := by
  intro t ht
  unfold SplitLayout.drag_border at ht
  cases ha : l.active_drag with
  | some drag_path =>
      simp only [ha] at ht
      exact layout_valid_drag_apply h drag_path position t ht
  | none =>
      cases hr : l.root with
      | none => simp only [ha, hr] at ht; exact Option.noConfusion ht
      | some root =>
          cases hw : l.last_window_size with
          | none =>
              simp only [ha, hr, hw] at ht
              injection ht with hte
              subst hte
              exact h _ hr
          | some ws =>
              simp only [ha, hr, hw] at ht
              cases hf : root.find_border_at (window_rect ws) position none [] with
              | some best =>
                  simp only [hf] at ht
                  have h2 : LayoutValid { l with root := some root, active_drag := some best.2, last_window_size := some ws } := by
                    intro u hu
                    have hu2 : some root = some u := hu
                    injection hu2 with hu3
                    subst hu3
                    exact h _ hr
                  exact layout_valid_drag_apply h2 best.2 position t ht
              | none =>
                  simp only [hf] at ht
                  exact h t ht

theorem layout_valid_begin_drag {l : SplitLayout} (h : LayoutValid l)
    (position : Vec2) (ws : Size) : LayoutValid (l.begin_drag position ws) := by
  intro t ht
  unfold SplitLayout.begin_drag at ht
  cases hr : l.root with
  | none => simp only [hr] at ht; exact Option.noConfusion ht
  | some root =>
      simp only [hr] at ht
      cases hf : root.find_border_at (window_rect ws) position none [] with
      | some best =>
          simp only [hf] at ht
          by_cases hd : best.1 ≤ border_hit_threshold
          · rw [if_pos hd] at ht
            have ht2 : some root = some t := ht
            injection ht2 with hte
            subst hte
            exact h _ hr
          · rw [if_neg hd] at ht
            exact h t ht
      | none =>
          simp only [hf] at ht
          exact h t ht

theorem clamp_mem (x lo hi : ℚ) (h : lo ≤ hi) :
    lo ≤ max lo (min x hi) ∧ max lo (min x hi) ≤ hi :=
  ⟨le_max_left _ _, max_le h (min_le_right _ _)⟩

theorem min_ratio_for_direction_bounds (rect : Rect) (cell_size : Size)
    (decorations : PaneDecorations) (direction : SplitDirection) :
    0 < min_ratio_for_direction rect cell_size decorations direction ∧
    min_ratio_for_direction rect cell_size decorations direction ≤ 9/20 := by
  cases direction <;> simp only [min_ratio_for_direction] <;> split_ifs
  · constructor <;> norm_num
  · constructor
    · have h20 : (0:ℚ) < 1/20 := by norm_num
      exact lt_of_lt_of_le h20 (le_max_left _ _)
    · exact max_le (by norm_num) (min_le_right _ _)
  · constructor <;> norm_num
  · constructor
    · have h20 : (0:ℚ) < 1/20 := by norm_num
      exact lt_of_lt_of_le h20 (le_max_left _ _)
    · exact max_le (by norm_num) (min_le_right _ _)

theorem valid_fracs_snap_ratios {n : Node} (cell_size : Size)
    (decorations : PaneDecorations) (hv : n.valid_fracs) :
    ∀ rect, (n.snap_ratios rect cell_size decorations).valid_fracs := by
  have hclamp : ∀ (x min_r : ℚ), 0 < min_r → min_r ≤ 9/20 →
      0 < max min_r (min x (1 - min_r)) ∧ max min_r (min x (1 - min_r)) < 1 := by
    intro x min_r h1 h2
    have hle : min_r ≤ 1 - min_r := by linarith
    obtain ⟨hlo, hhi⟩ := clamp_mem x min_r (1 - min_r) hle
    exact ⟨lt_of_lt_of_le h1 hlo, by linarith⟩
  induction n with
  | Leaf id => intro rect; trivial
  | Split d frac left right ihl ihr =>
      obtain ⟨hf, hvl, hvr⟩ := hv
      intro rect
      cases d
      · simp only [Node.snap_ratios]
        split_ifs with hc hcw
        · exact ⟨hf, hvl, hvr⟩
        · obtain ⟨h1, h2⟩ := min_ratio_for_direction_bounds rect cell_size
            decorations SplitDirection.Horizontal
          exact ⟨hclamp _ _ h1 h2, ihl hvl _, ihr hvr _⟩
        · exact ⟨hf, ihl hvl _, ihr hvr _⟩
      · simp only [Node.snap_ratios]
        split_ifs with hc hcw
        · exact ⟨hf, hvl, hvr⟩
        · obtain ⟨h1, h2⟩ := min_ratio_for_direction_bounds rect cell_size
            decorations SplitDirection.Vertical
          exact ⟨hclamp _ _ h1 h2, ihl hvl _, ihr hvr _⟩
        · exact ⟨hf, ihl hvl _, ihr hvr _⟩

theorem layout_valid_snap_ratios_to_cells {l : SplitLayout} (h : LayoutValid l)
    (window_size cell_size : Size) (decorations : PaneDecorations) :
    LayoutValid (l.snap_ratios_to_cells window_size cell_size decorations) := by
  intro t ht
  unfold SplitLayout.snap_ratios_to_cells at ht
  cases hr : l.root with
  | none => simp only [hr] at ht; exact Option.noConfusion ht
  | some root =>
      simp only [hr, Option.some.injEq] at ht
      cases ht
      exact valid_fracs_snap_ratios cell_size decorations (h _ hr) _

theorem snapshot_node_roundtrip (t : Node) :
    snapshot_to_node (node_to_snapshot t) = t := by
  induction t with
  | Leaf id => rfl
  | Split d frac left right ihl ihr =>
      simp [node_to_snapshot, snapshot_to_node, ihl, ihr]

theorem layout_valid_from_snapshot {l : SplitLayout} {s : LayoutSnapshot}
    (h : LayoutValid l) (hs : l.snapshot = some s) :
    LayoutValid (SplitLayout.from_snapshot s) := by
  intro u hu
  unfold SplitLayout.snapshot at hs
  cases hr : l.root with
  | none => rw [hr] at hs; simp at hs
  | some t =>
      rw [hr] at hs
      have h2 : node_to_snapshot t = s := by simpa using hs
      subst h2
      have hu2 : some (snapshot_to_node (node_to_snapshot t)) = some u := hu
      rw [snapshot_node_roundtrip] at hu2
      injection hu2 with hu3
      subst hu3
      exact h _ hr

/-- A fold whose step never increases the accumulator is bounded by its
seed. -/
theorem foldl_le_of_step {α : Type} (g : ℚ → α → ℚ) (hg : ∀ m x, g m x ≤ m) :
    ∀ (xs : List α) (a : ℚ), xs.foldl g a ≤ a := by
  intro xs
  induction xs with
  | nil => intro a; exact le_refl a
  | cons x rest ih =>
      intro a
      exact le_trans (ih (g a x)) (hg a x)

theorem foldl_le_mem_of_step {α : Type} (f : α → ℚ) (g : ℚ → α → ℚ)
    (hg1 : ∀ m x, g m x ≤ m) (hg2 : ∀ m x, g m x ≤ f x) :
    ∀ (xs : List α) (a : ℚ) (p : α), p ∈ xs → xs.foldl g a ≤ f p := by
  intro xs
  induction xs with
  | nil => intro a p hp; cases hp
  | cons x rest ih =>
      intro a p hp
      cases hp with
      | head => exact le_trans (foldl_le_of_step g hg1 rest (g a x)) (hg2 a x)
      | tail _ hmem => exact ih _ p hmem

/-- A fold whose step never decreases the accumulator dominates its
seed. -/
theorem le_foldl_of_step {α : Type} (g : ℚ → α → ℚ) (hg : ∀ m x, m ≤ g m x) :
    ∀ (xs : List α) (a : ℚ), a ≤ xs.foldl g a := by
  intro xs
  induction xs with
  | nil => intro a; exact le_refl a
  | cons x rest ih =>
      intro a
      exact le_trans (hg a x) (ih (g a x))

theorem mem_le_foldl_of_step {α : Type} (f : α → ℚ) (g : ℚ → α → ℚ)
    (hg1 : ∀ m x, m ≤ g m x) (hg2 : ∀ m x, f x ≤ g m x) :
    ∀ (xs : List α) (a : ℚ) (p : α), p ∈ xs → f p ≤ xs.foldl g a := by
  intro xs
  induction xs with
  | nil => intro a p hp; cases hp
  | cons x rest ih =>
      intro a p hp
      cases hp with
      | head => exact le_trans (hg2 a x) (le_foldl_of_step g hg1 rest (g a x))
      | tail _ hmem => exact ih _ p hmem

theorem foldl_le_of_bound {α : Type} (f : α → ℚ) (g : ℚ → α → ℚ)
    (hg : ∀ m x b, m ≤ b → f x ≤ b → g m x ≤ b) :
    ∀ (xs : List α) (a b : ℚ), a ≤ b → (∀ p ∈ xs, f p ≤ b) →
      xs.foldl g a ≤ b := by
  intro xs
  induction xs with
  | nil => intro a b ha _; exact ha
  | cons x rest ih =>
      intro a b ha hall
      exact ih _ b (hg a x b ha (hall x (List.mem_cons_self x rest)))
        (fun p hp => hall p (List.mem_cons_of_mem x hp))

/-- Splitting along its own axis scales the extent by the ratio and keeps
(resp. shifts) the leading coordinate. -/
theorem dir_split_same (rect : Rect) (f : ℚ) (d : SplitDirection) :
    dir_extent d (split_rect rect d f).1 = dir_extent d rect * f ∧
    dir_extent d (split_rect rect d f).2 = dir_extent d rect - dir_extent d rect * f ∧
    dir_lead d (split_rect rect d f).1 = dir_lead d rect ∧
    dir_lead d (split_rect rect d f).2 = dir_lead d rect + dir_extent d rect * f := by
  cases d <;> exact ⟨rfl, rfl, rfl, rfl⟩

/-- Splitting along the other axis leaves extent and leading coordinate
unchanged. -/
theorem dir_split_other (rect : Rect) (f : ℚ) (d d2 : SplitDirection) (hne : d ≠ d2) :
    dir_extent d (split_rect rect d2 f).1 = dir_extent d rect ∧
    dir_extent d (split_rect rect d2 f).2 = dir_extent d rect ∧
    dir_lead d (split_rect rect d2 f).1 = dir_lead d rect ∧
    dir_lead d (split_rect rect d2 f).2 = dir_lead d rect := by
  cases d <;> cases d2
  · exact absurd rfl hne
  · exact ⟨rfl, rfl, rfl, rfl⟩
  · exact ⟨rfl, rfl, rfl, rfl⟩
  · exact absurd rfl hne

theorem split_pos_parts {w f : ℚ} (hw : 0 < w) (hf0 : 0 < f) (hf1 : f < 1) :
    0 < w * f ∧ 0 < w - w * f := by
  constructor
  · exact mul_pos hw hf0
  · nlinarith

/-- Over a base rect with positive extent along an axis, every computed
pane rect of a tree with valid ratios has positive extent along that
axis. -/
theorem compute_rects_pos_ext (d : SplitDirection) {t : Node} (hv : t.valid_fracs) :
    ∀ {rect : Rect}, 0 < dir_extent d rect →
      ∀ p ∈ t.compute_rects rect, 0 < dir_extent d p.2 := by
  induction t with
  | Leaf id =>
      intro rect hrect p hp
      simp only [Node.compute_rects, List.mem_singleton] at hp
      subst hp
      exact hrect
  | Split d2 frac left right ihl ihr =>
      obtain ⟨hf, hvl, hvr⟩ := hv
      intro rect hrect p hp
      simp only [Node.compute_rects, List.mem_append] at hp
      have hparts : 0 < dir_extent d (split_rect rect d2 frac).1 ∧
          0 < dir_extent d (split_rect rect d2 frac).2 := by
        by_cases hdd : d = d2
        · subst hdd
          obtain ⟨he1, he2, h3, h4⟩ := dir_split_same rect frac d
          rw [he1, he2]
          exact split_pos_parts hrect hf.1 hf.2
        · obtain ⟨he1, he2, h3, h4⟩ := dir_split_other rect frac d d2 hdd
          rw [he1, he2]
          exact ⟨hrect, hrect⟩
      cases hp with
      | inl hp => exact ihl hvl hparts.1 p hp
      | inr hp => exact ihr hvr hparts.2 p hp

/-- Over a base rect with zero extent along an axis, every computed pane
rect has zero extent and the same leading coordinate along that axis. -/
theorem compute_rects_zero_ext (d : SplitDirection) {t : Node} (hv : t.valid_fracs) :
    ∀ {rect : Rect}, dir_extent d rect = 0 →
      ∀ p ∈ t.compute_rects rect,
        dir_extent d p.2 = 0 ∧ dir_lead d p.2 = dir_lead d rect := by
  induction t with
  | Leaf id =>
      intro rect hrect p hp
      simp only [Node.compute_rects, List.mem_singleton] at hp
      subst hp
      exact ⟨hrect, rfl⟩
  | Split d2 frac left right ihl ihr =>
      obtain ⟨hf, hvl, hvr⟩ := hv
      intro rect hrect p hp
      simp only [Node.compute_rects, List.mem_append] at hp
      have hparts : (dir_extent d (split_rect rect d2 frac).1 = 0 ∧
            dir_lead d (split_rect rect d2 frac).1 = dir_lead d rect) ∧
          dir_extent d (split_rect rect d2 frac).2 = 0 ∧
          dir_lead d (split_rect rect d2 frac).2 = dir_lead d rect := by
        by_cases hdd : d = d2
        · subst hdd
          obtain ⟨he1, he2, hl1, hl2⟩ := dir_split_same rect frac d
          rw [he1, he2, hl1, hl2, hrect]
          norm_num
        · obtain ⟨he1, he2, hl1, hl2⟩ := dir_split_other rect frac d d2 hdd
          rw [he1, he2, hl1, hl2]
          exact ⟨⟨hrect, rfl⟩, hrect, rfl⟩
      cases hp with
      | inl hp =>
          obtain ⟨hz2, hld⟩ := ihl hvl hparts.1.1 p hp
          exact ⟨hz2, hld.trans hparts.1.2⟩
      | inr hp =>
          obtain ⟨hz2, hld⟩ := ihr hvr hparts.2.1 p hp
          exact ⟨hz2, hld.trans hparts.2.2⟩

theorem uniform_axis_subset {d : SplitDirection} {r1 r2 : List (PaneId × Rect)}
    (hsub : ∀ p ∈ r1, p ∈ r2) (hu : uniform_axis d r2) : uniform_axis d r1 := by
  cases hu with
  | inl h => exact Or.inl (fun p hp => h p (hsub p hp))
  | inr h =>
      obtain ⟨c, hc⟩ := h
      exact Or.inr ⟨c, fun p hp => hc p (hsub p hp)⟩

/-- The pane rects computed from a valid tree over a rect with
non-negative extent are uniform along that axis. -/
theorem uniform_of_compute {t : Node} (hv : t.valid_fracs) (d : SplitDirection)
    {rect : Rect} (hext : 0 ≤ dir_extent d rect) :
    uniform_axis d (t.compute_rects rect) := by
  rcases lt_or_eq_of_le hext with hpos | hzero
  · exact Or.inl (compute_rects_pos_ext d hv hpos)
  · exact Or.inr ⟨dir_lead d rect, compute_rects_zero_ext d hv hzero.symm⟩

/-- The output of `SplitLayout.compute` over a window with non-negative
sizes is uniform along both axes. -/
theorem uniform_compute_layout {l : SplitLayout} (h : LayoutValid l)
    (d : SplitDirection) (ws : Size) (hw : 0 ≤ ws.width) (hh : 0 ≤ ws.height) :
    uniform_axis d (l.compute ws) := by
  unfold SplitLayout.compute
  cases hr : l.root with
  | none => exact Or.inl (fun p hp => absurd hp (List.not_mem_nil p))
  | some root =>
      have hext : 0 ≤ dir_extent d (window_rect ws) := by
        cases d
        · exact hw
        · exact hh
      exact uniform_of_compute (h _ hr) d hext

/-- Both partition groups consist of members of the input list. -/
theorem partition_at_mem {d : SplitDirection} {pos : ℚ} :
    ∀ {rects lg rg : List (PaneId × Rect)},
      partition_at d pos rects = some (lg, rg) →
      (∀ p ∈ lg, p ∈ rects) ∧ ∀ p ∈ rg, p ∈ rects := by
  intro rects
  induction rects with
  | nil =>
      intro lg rg h
      simp only [partition_at, Option.some.injEq, Prod.mk.injEq] at h
      obtain ⟨h1, h2⟩ := h
      subst h1
      subst h2
      exact ⟨fun p hp => hp, fun p hp => hp⟩
  | cons x rest ih =>
      intro lg rg h
      simp only [partition_at] at h
      split_ifs at h with h1 h2
      · rcases Option.map_eq_some'.mp h with ⟨g, hg, hmap⟩
        obtain ⟨g1, g2⟩ := g
        injection hmap with hl hr
        subst hl
        subst hr
        obtain ⟨ihl, ihr⟩ := ih hg
        constructor
        · intro p hp
          rcases List.mem_cons.mp hp with rfl | hp2
          · exact List.mem_cons_self _ _
          · exact List.mem_cons_of_mem x (ihl p hp2)
        · intro p hp
          exact List.mem_cons_of_mem x (ihr p hp)
      · rcases Option.map_eq_some'.mp h with ⟨g, hg, hmap⟩
        obtain ⟨g1, g2⟩ := g
        injection hmap with hl hr
        subst hl
        subst hr
        obtain ⟨ihl, ihr⟩ := ih hg
        constructor
        · intro p hp
          exact List.mem_cons_of_mem x (ihl p hp)
        · intro p hp
          rcases List.mem_cons.mp hp with rfl | hp2
          · exact List.mem_cons_self _ _
          · exact List.mem_cons_of_mem x (ihr p hp2)

/-- Everything the candidate fold adds beyond its accumulator is the
trailing edge of some pane, farther than `layout_eps` from `max_e`. -/
theorem candidate_foldl_sound {d : SplitDirection} {max_e : ℚ} :
    ∀ (rects : List (PaneId × Rect)) (acc : List ℚ) (pos : ℚ),
      pos ∈ rects.foldl (candidate_step d max_e) acc →
      pos ∈ acc ∨ ∃ p ∈ rects, pos = trailing_edge d p.2 ∧
        |pos - max_e| > layout_eps := by
  intro rects
  induction rects with
  | nil => intro acc pos h; exact Or.inl h
  | cons x rest ih =>
      intro acc pos h
      rcases ih (candidate_step d max_e acc x) pos h with hacc | ⟨p, hp, hpe, hfar⟩
      · simp only [candidate_step] at hacc
        split_ifs at hacc with h1 h2
        · exact Or.inl hacc
        · rcases List.mem_append.mp hacc with hl | hr
          · exact Or.inl hl
          · have hpe : pos = trailing_edge d x.2 := by simpa using hr
            subst hpe
            exact Or.inr ⟨x, List.mem_cons_self x rest, rfl, h1⟩
        · exact Or.inl hacc
      · exact Or.inr ⟨p, List.mem_cons_of_mem x hp, hpe, hfar⟩

theorem collect_candidates_sound {d : SplitDirection} {max_e : ℚ}
    {rects : List (PaneId × Rect)} {pos : ℚ}
    (h : pos ∈ collect_candidates d max_e rects) :
    ∃ p ∈ rects, pos = trailing_edge d p.2 ∧ |pos - max_e| > layout_eps := by
  rcases candidate_foldl_sound rects [] pos h with habs | hgood
  · exact absurd habs (List.not_mem_nil pos)
  · exact hgood

/-- A successful `first_clean_split` returns the partition at one of the
candidates and the ratio `(pos - bmin) / (bmax - bmin)` for that
candidate. -/
theorem first_clean_split_mem {rects : List (PaneId × Rect)} {d : SplitDirection}
    {bmin bmax : ℚ} {lg rg : List (PaneId × Rect)} {q : ℚ} :
    ∀ {cands : List ℚ}, first_clean_split rects d bmin bmax cands = some (lg, rg, q) →
      ∃ pos ∈ cands, partition_at d pos rects = some (lg, rg) ∧
        q = (pos - bmin) / (bmax - bmin) := by
  intro cands
  induction cands with
  | nil => intro h; exact Option.noConfusion h
  | cons pos more ih =>
      intro h
      simp only [first_clean_split] at h
      cases hp : partition_at d pos rects with
      | some groups =>
          simp only [hp] at h
          split_ifs at h with hne
          · simp only [Option.some.injEq, Prod.mk.injEq] at h
            obtain ⟨h1, h2, h3⟩ := h
            subst h1
            subst h2
            subst h3
            exact ⟨pos, List.mem_cons_self pos more, hp, rfl⟩
          · rcases ih h with ⟨pos2, hmem, hpart, hq⟩
            exact ⟨pos2, List.mem_cons_of_mem pos hmem, hpart, hq⟩
      | none =>
          simp only [hp] at h
          rcases ih h with ⟨pos2, hmem, hpart, hq⟩
          exact ⟨pos2, List.mem_cons_of_mem pos hmem, hpart, hq⟩

/-- Core ratio bound: when the bounding box brackets all panes, every
candidate is a trailing edge well inside the box, and the pane list is
uniform along the axis, a successful `first_clean_split` ratio lies
strictly in (0, 1). -/
theorem first_clean_split_frac_bounds {rects : List (PaneId × Rect)}
    {d : SplitDirection} {bmin bmax : ℚ} {cands : List ℚ}
    {lg rg : List (PaneId × Rect)} {q : ℚ}
    (hu : uniform_axis d rects)
    (hmin : ∀ p ∈ rects, bmin ≤ dir_lead d p.2)
    (hmax : ∀ p ∈ rects, trailing_edge d p.2 ≤ bmax)
    (hbmax : ∀ b, (∀ p ∈ rects, trailing_edge d p.2 ≤ b) → bmax ≤ b)
    (hcand : ∀ pos ∈ cands, ∃ p ∈ rects, pos = trailing_edge d p.2 ∧
      |pos - bmax| > layout_eps)
    (h : first_clean_split rects d bmin bmax cands = some (lg, rg, q)) :
    0 < q ∧ q < 1 := by
  obtain ⟨pos, hmem, hpart, hq⟩ := first_clean_split_mem h
  obtain ⟨p, hp, hpe, hfar⟩ := hcand pos hmem
  subst hpe
  have hte : trailing_edge d p.2 = dir_lead d p.2 + dir_extent d p.2 := by
    cases d <;> rfl
  have h1 := hmin p hp
  have h2 := hmax p hp
  have hlt : trailing_edge d p.2 < bmax := by
    rcases lt_or_eq_of_le h2 with hlt | heq
    · exact hlt
    · rw [heq, sub_self] at hfar
      norm_num [layout_eps] at hfar
  cases hu with
  | inl hposall =>
      have h3 := hposall p hp
      have hgt : bmin < trailing_edge d p.2 := by rw [hte]; linarith
      have hden : 0 < bmax - bmin := by linarith
      subst hq
      refine ⟨div_pos (by linarith) hden, ?_⟩
      rw [div_lt_one hden]
      linarith
  | inr hz =>
      obtain ⟨c, hc⟩ := hz
      exfalso
      have hall : ∀ r ∈ rects, trailing_edge d r.2 ≤ c := by
        intro r hr
        obtain ⟨hext, hlead⟩ := hc r hr
        have hte2 : trailing_edge d r.2 = dir_lead d r.2 + dir_extent d r.2 := by
          cases d <;> rfl
        rw [hte2, hext, hlead]
        norm_num
      have hba : bmax ≤ c := hbmax c hall
      obtain ⟨hext, hlead⟩ := hc p hp
      have hpc : trailing_edge d p.2 = c := by
        rw [hte, hext, hlead]
        norm_num
      rw [hpc] at hlt
      linarith

/-- Under uniformity along the split axis, a successful `try_split`
ratio lies strictly in (0, 1). -/
theorem try_split_frac_bounds {rects : List (PaneId × Rect)} {d : SplitDirection}
    {lg rg : List (PaneId × Rect)} {q : ℚ} (hu : uniform_axis d rects)
    (h : try_split rects d = some (lg, rg, q)) : 0 < q ∧ q < 1 := by
  rcases rects with _ | ⟨p0, _ | ⟨p1, rest⟩⟩
  · simp [try_split] at h
  · simp [try_split] at h
  · cases d
    · simp only [try_split] at h
      refine first_clean_split_frac_bounds hu ?_ ?_ ?_ ?_ h
      · intro p hp
        rcases List.mem_cons.mp hp with rfl | hp2
        · exact foldl_le_of_step _ (fun m x => min_le_left _ _) (p1 :: rest) _
        · exact foldl_le_mem_of_step (fun r => r.2.x) _
            (fun m x => min_le_left _ _) (fun m x => min_le_right _ _)
            (p1 :: rest) p0.2.x p hp2
      · intro p hp
        rcases List.mem_cons.mp hp with rfl | hp2
        · exact le_foldl_of_step _ (fun m x => le_max_left _ _) (p1 :: rest) _
        · exact mem_le_foldl_of_step (fun r => r.2.x + r.2.width) _
            (fun m x => le_max_left _ _) (fun m x => le_max_right _ _)
            (p1 :: rest) (p0.2.x + p0.2.width) p hp2
      · intro b hball
        exact foldl_le_of_bound (fun r => r.2.x + r.2.width) _
          (fun m x b2 hm hx => max_le hm hx) (p1 :: rest)
          (p0.2.x + p0.2.width) b (hball p0 (List.mem_cons_self p0 (p1 :: rest)))
          (fun x hx => hball x (List.mem_cons_of_mem p0 hx))
      · intro pos hpos
        exact collect_candidates_sound hpos
    · simp only [try_split] at h
      refine first_clean_split_frac_bounds hu ?_ ?_ ?_ ?_ h
      · intro p hp
        rcases List.mem_cons.mp hp with rfl | hp2
        · exact foldl_le_of_step _ (fun m x => min_le_left _ _) (p1 :: rest) _
        · exact foldl_le_mem_of_step (fun r => r.2.y) _
            (fun m x => min_le_left _ _) (fun m x => min_le_right _ _)
            (p1 :: rest) p0.2.y p hp2
      · intro p hp
        rcases List.mem_cons.mp hp with rfl | hp2
        · exact le_foldl_of_step _ (fun m x => le_max_left _ _) (p1 :: rest) _
        · exact mem_le_foldl_of_step (fun r => r.2.y + r.2.height) _
            (fun m x => le_max_left _ _) (fun m x => le_max_right _ _)
            (p1 :: rest) (p0.2.y + p0.2.height) p hp2
      · intro b hball
        exact foldl_le_of_bound (fun r => r.2.y + r.2.height) _
          (fun m x b2 hm hx => max_le hm hx) (p1 :: rest)
          (p0.2.y + p0.2.height) b (hball p0 (List.mem_cons_self p0 (p1 :: rest)))
          (fun x hx => hball x (List.mem_cons_of_mem p0 hx))
      · intro pos hpos
        exact collect_candidates_sound hpos

/-- Both groups of a successful `try_split` consist of members of the
input list. -/
theorem try_split_mem_groups {rects : List (PaneId × Rect)} {d : SplitDirection}
    {lg rg : List (PaneId × Rect)} {q : ℚ}
    (h : try_split rects d = some (lg, rg, q)) :
    (∀ p ∈ lg, p ∈ rects) ∧ ∀ p ∈ rg, p ∈ rects := by
  rcases rects with _ | ⟨p0, _ | ⟨p1, rest⟩⟩
  · simp [try_split] at h
  · simp [try_split] at h
  · simp only [try_split] at h
    obtain ⟨pos, hmem, hpart, hq⟩ := first_clean_split_mem h
    exact partition_at_mem hpart

/-- The half-half fallback chain of `build_tree_from_rects` has valid
ratios. -/
theorem fallback_chain_valid (d : SplitDirection) (ps : List (PaneId × Rect)) :
    ∀ (n : Node), n.valid_fracs →
      (ps.foldl (fun node p => Node.Split d (1/2) node (Node.Leaf p.1)) n).valid_fracs := by
  induction ps with
  | nil => intro n hn; exact hn
  | cons p rest ih =>
      intro n hn
      exact ih _ ⟨⟨by norm_num, by norm_num⟩, hn, trivial⟩

/-- Any tree built by `build_tree_fuel` from a pane list uniform along
both axes has all its split ratios strictly in (0, 1). -/
theorem build_tree_fuel_valid :
    ∀ (fuel : ℕ) (rects : List (PaneId × Rect)) (d : SplitDirection) {t : Node},
      uniform_axis SplitDirection.Horizontal rects →
      uniform_axis SplitDirection.Vertical rects →
      build_tree_fuel fuel rects d = some t → t.valid_fracs := by
  intro fuel
  induction fuel with
  | zero =>
      intro rects d t hH hV h
      simp [build_tree_fuel] at h
  | succ fuel ih =>
      intro rects d t hH hV h
      rcases rects with _ | ⟨p1, _ | ⟨p2, rest⟩⟩
      · simp [build_tree_fuel] at h
      · simp only [build_tree_fuel, Option.some.injEq] at h
        subst h
        trivial
      · have hgroups : ∀ (dd : SplitDirection) (lg rg : List (PaneId × Rect)) (fr : ℚ),
            try_split (p1 :: p2 :: rest) dd = some (lg, rg, fr) →
            uniform_axis SplitDirection.Horizontal lg ∧
            uniform_axis SplitDirection.Vertical lg ∧
            uniform_axis SplitDirection.Horizontal rg ∧
            uniform_axis SplitDirection.Vertical rg := by
          intro dd lg rg fr hts
          obtain ⟨hml, hmr⟩ := try_split_mem_groups hts
          exact ⟨uniform_axis_subset hml hH, uniform_axis_subset hml hV,
                 uniform_axis_subset hmr hH, uniform_axis_subset hmr hV⟩
        cases d with
        | Horizontal =>
            simp only [build_tree_fuel] at h
            cases h1 : try_split (p1 :: p2 :: rest) SplitDirection.Horizontal with
            | some res =>
                obtain ⟨lg, rg, fr⟩ := res
                simp only [h1] at h
                obtain ⟨hlH, hlV, hrH, hrV⟩ := hgroups _ _ _ _ h1
                cases h2 : build_tree_fuel fuel lg SplitDirection.Horizontal with
                | none => simp only [h2] at h; exact Option.noConfusion h
                | some left_t =>
                    cases h3 : build_tree_fuel fuel rg SplitDirection.Horizontal with
                    | none => simp only [h2, h3] at h; exact Option.noConfusion h
                    | some right_t =>
                        simp only [h2, h3, Option.some.injEq] at h
                        subst h
                        exact ⟨try_split_frac_bounds hH h1, ih lg _ hlH hlV h2,
                               ih rg _ hrH hrV h3⟩
            | none =>
                simp only [h1] at h
                cases h4 : try_split (p1 :: p2 :: rest) SplitDirection.Vertical with
                | some res =>
                    obtain ⟨lg, rg, fr⟩ := res
                    simp only [h4] at h
                    obtain ⟨hlH, hlV, hrH, hrV⟩ := hgroups _ _ _ _ h4
                    cases h2 : build_tree_fuel fuel lg SplitDirection.Horizontal with
                    | none => simp only [h2] at h; exact Option.noConfusion h
                    | some left_t =>
                        cases h3 : build_tree_fuel fuel rg SplitDirection.Horizontal with
                        | none => simp only [h2, h3] at h; exact Option.noConfusion h
                        | some right_t =>
                            simp only [h2, h3, Option.some.injEq] at h
                            subst h
                            exact ⟨try_split_frac_bounds hV h4, ih lg _ hlH hlV h2,
                                   ih rg _ hrH hrV h3⟩
                | none =>
                    simp only [h4, Option.some.injEq] at h
                    subst h
                    exact fallback_chain_valid SplitDirection.Horizontal (p2 :: rest)
                      (Node.Leaf p1.1) trivial
        | Vertical =>
            simp only [build_tree_fuel] at h
            cases h1 : try_split (p1 :: p2 :: rest) SplitDirection.Vertical with
            | some res =>
                obtain ⟨lg, rg, fr⟩ := res
                simp only [h1] at h
                obtain ⟨hlH, hlV, hrH, hrV⟩ := hgroups _ _ _ _ h1
                cases h2 : build_tree_fuel fuel lg SplitDirection.Vertical with
                | none => simp only [h2] at h; exact Option.noConfusion h
                | some left_t =>
                    cases h3 : build_tree_fuel fuel rg SplitDirection.Vertical with
                    | none => simp only [h2, h3] at h; exact Option.noConfusion h
                    | some right_t =>
                        simp only [h2, h3, Option.some.injEq] at h
                        subst h
                        exact ⟨try_split_frac_bounds hV h1, ih lg _ hlH hlV h2,
                               ih rg _ hrH hrV h3⟩
            | none =>
                simp only [h1] at h
                cases h4 : try_split (p1 :: p2 :: rest) SplitDirection.Horizontal with
                | some res =>
                    obtain ⟨lg, rg, fr⟩ := res
                    simp only [h4] at h
                    obtain ⟨hlH, hlV, hrH, hrV⟩ := hgroups _ _ _ _ h4
                    cases h2 : build_tree_fuel fuel lg SplitDirection.Vertical with
                    | none => simp only [h2] at h; exact Option.noConfusion h
                    | some left_t =>
                        cases h3 : build_tree_fuel fuel rg SplitDirection.Vertical with
                        | none => simp only [h2, h3] at h; exact Option.noConfusion h
                        | some right_t =>
                            simp only [h2, h3, Option.some.injEq] at h
                            subst h
                            exact ⟨try_split_frac_bounds hH h4, ih lg _ hlH hlV h2,
                                   ih rg _ hrH hrV h3⟩
                | none =>
                    simp only [h4, Option.some.injEq] at h
                    subst h
                    exact fallback_chain_valid SplitDirection.Vertical (p2 :: rest)
                      (Node.Leaf p1.1) trivial

theorem build_tree_from_rects_valid {rects : List (PaneId × Rect)}
    {d : SplitDirection} {t : Node}
    (hH : uniform_axis SplitDirection.Horizontal rects)
    (hV : uniform_axis SplitDirection.Vertical rects)
    (h : build_tree_from_rects rects d = some t) : t.valid_fracs :=
  build_tree_fuel_valid rects.length rects d hH hV h

/-- A tree rebuilt by the restructure operations from the filtered pane
rects of a valid layout, over a window with non-negative sizes, has
valid ratios. -/
theorem restructure_build_valid {l : SplitLayout} (h : LayoutValid l)
    (ws : Size) (hw : 0 ≤ ws.width) (hh : 0 ≤ ws.height) (source : PaneId)
    {d : SplitDirection} {t : Node}
    (hb : build_tree_from_rects ((l.compute ws).filter (fun p => p.1 ≠ source)) d =
      some t) : t.valid_fracs := by
  have hsub : ∀ p ∈ (l.compute ws).filter (fun p => p.1 ≠ source), p ∈ l.compute ws :=
    fun p hp => List.mem_of_mem_filter hp
  exact build_tree_from_rects_valid
    (uniform_axis_subset hsub (uniform_compute_layout h _ ws hw hh))
    (uniform_axis_subset hsub (uniform_compute_layout h _ ws hw hh)) hb

theorem layout_valid_restructure_move_to_root {l : SplitLayout} (h : LayoutValid l)
    (source : PaneId) (zone : DropZone) (ws : Size)
    (hw : 0 ≤ ws.width) (hh : 0 ≤ ws.height) :
    LayoutValid (l.restructure_move_to_root source zone ws).2 := by
  intro t ht
  unfold SplitLayout.restructure_move_to_root at ht
  by_cases hz : zone = DropZone.Center
  · rw [if_pos hz] at ht
    exact h t ht
  · rw [if_neg hz] at ht
    cases hr : l.root with
    | none => simp only [hr] at ht; exact Option.noConfusion ht
    | some root =>
        simp only [hr] at ht
        by_cases hrem : (l.compute ws).filter (fun p => p.1 ≠ source) = []
        · rw [if_pos hrem] at ht
          exact h t ht
        · rw [if_neg hrem] at ht
          cases hb : build_tree_from_rects
              ((l.compute ws).filter (fun p => p.1 ≠ source)) (zone_primary zone) with
          | none => simp only [hb] at ht; exact h t ht
          | some new_root =>
              simp only [hb] at ht
              have hnr : new_root.valid_fracs :=
                restructure_build_valid h ws hw hh source hb
              have hmid : LayoutValid { l with root := some new_root } := by
                intro u hu
                simp only [Option.some.injEq] at hu
                cases hu
                exact hnr
              exact layout_valid_insert_at_root hmid source zone t ht

theorem layout_valid_restructure_move_pane {l : SplitLayout} (h : LayoutValid l)
    (source target : PaneId) (zone : DropZone) (ws : Size)
    (hw : 0 ≤ ws.width) (hh : 0 ≤ ws.height) :
    LayoutValid (l.restructure_move_pane source target zone ws).2 := by
  intro t ht
  unfold SplitLayout.restructure_move_pane at ht
  by_cases hst : source = target
  · rw [if_pos hst] at ht
    exact h t ht
  · rw [if_neg hst] at ht
    cases hr : l.root with
    | none => simp only [hr] at ht; exact Option.noConfusion ht
    | some root =>
        simp only [hr] at ht
        by_cases hz : zone = DropZone.Center
        · rw [if_pos hz] at ht
          simp only [Option.some.injEq] at ht
          cases ht
          exact valid_fracs_swap_panes _ _ (h _ hr)
        · rw [if_neg hz] at ht
          by_cases hrem : (l.compute ws).filter (fun p => p.1 ≠ source) = []
          · rw [if_pos hrem] at ht
            exact h t ht
          · rw [if_neg hrem] at ht
            cases hb : build_tree_from_rects
                ((l.compute ws).filter (fun p => p.1 ≠ source)) (zone_primary zone) with
            | none => simp only [hb] at ht; exact h t ht
            | some new_root =>
                simp only [hb] at ht
                have hnr : new_root.valid_fracs :=
                  restructure_build_valid h ws hw hh source hb
                cases hi : new_root.insert_pane_at target source
                    (zone_direction zone).1 (zone_direction zone).2 with
                | some new_root2 =>
                    simp only [hi, Option.some.injEq] at ht
                    cases ht
                    exact valid_fracs_insert_pane_at hnr hi
                | none =>
                    simp only [hi, Option.some.injEq] at ht
                    cases ht
                    exact hnr

/-- Every layout reachable by the public operations keeps all its split
ratios strictly inside (0, 1). -/
theorem reachable_valid {l : SplitLayout} (h : Reachable l) : LayoutValid l := by
  induction h with
  | new => intro t ht; simp [SplitLayout.new] at ht
  | initial =>
      intro t ht
      simp only [SplitLayout.with_initial_pane, Option.some.injEq] at ht
      cases ht
      trivial
  | split p d _ ih => exact layout_valid_split ih p d
  | remove p _ ih => exact layout_valid_remove ih p
  | insert_pane tp np d f _ ih => exact layout_valid_insert_pane ih tp np d f
  | insert_at_root np z _ ih => exact layout_valid_insert_at_root ih np z
  | move_pane s tp z _ ih => exact layout_valid_move_pane ih s tp z
  | move_pane_to_root s z _ ih => exact layout_valid_move_pane_to_root ih s z
  | begin_drag pos ws _ ih => exact layout_valid_begin_drag ih pos ws
  | drag_border pos _ ih => exact layout_valid_drag_border ih pos
  | end_drag _ ih => intro t ht; exact ih t ht
  | restructure_move_pane s tp z ws hw hh _ ih =>
      exact layout_valid_restructure_move_pane ih s tp z ws hw hh
  | restructure_move_to_root s z ws hw hh _ ih =>
      exact layout_valid_restructure_move_to_root ih s z ws hw hh
  | snap_ratios_to_cells ws cs dec _ ih =>
      exact layout_valid_snap_ratios_to_cells ih ws cs dec
  | from_snapshot s _ hs ih => exact layout_valid_from_snapshot ih hs

theorem rect_inside_refl (a : Rect) : a.inside a :=
  ⟨le_refl _, le_refl _, le_refl _, le_refl _⟩

theorem rect_inside_trans {a b c : Rect} (h1 : a.inside b) (h2 : b.inside c) :
    a.inside c := by
  obtain ⟨p1, p2, p3, p4⟩ := h1
  obtain ⟨q1, q2, q3, q4⟩ := h2
  exact ⟨le_trans q1 p1, le_trans p2 q2, le_trans q3 p3, le_trans p4 q4⟩

theorem split_rect_area (rect : Rect) (d : SplitDirection) (frac : ℚ) :
    (split_rect rect d frac).1.area + (split_rect rect d frac).2.area = rect.area := by
  cases d <;> simp [split_rect, Rect.area] <;> ring

theorem split_rect_nonneg_left (rect : Rect) (d : SplitDirection) (frac : ℚ)
    (hr : rect.nonneg) (h0 : 0 ≤ frac) (h1 : frac ≤ 1) :
    (split_rect rect d frac).1.nonneg := by
  obtain ⟨hw, hh⟩ := hr
  cases d
  · show 0 ≤ rect.width * frac ∧ 0 ≤ rect.height
    exact ⟨mul_nonneg hw h0, hh⟩
  · show 0 ≤ rect.width ∧ 0 ≤ rect.height * frac
    exact ⟨hw, mul_nonneg hh h0⟩

theorem split_rect_nonneg_right (rect : Rect) (d : SplitDirection) (frac : ℚ)
    (hr : rect.nonneg) (h0 : 0 ≤ frac) (h1 : frac ≤ 1) :
    (split_rect rect d frac).2.nonneg := by
  obtain ⟨hw, hh⟩ := hr
  cases d
  · show 0 ≤ rect.width - rect.width * frac ∧ 0 ≤ rect.height
    exact ⟨by nlinarith, hh⟩
  · show 0 ≤ rect.width ∧ 0 ≤ rect.height - rect.height * frac
    exact ⟨hw, by nlinarith⟩

theorem split_rect_inside_left (rect : Rect) (d : SplitDirection) (frac : ℚ)
    (hr : rect.nonneg) (h0 : 0 ≤ frac) (h1 : frac ≤ 1) :
    (split_rect rect d frac).1.inside rect := by
  obtain ⟨hw, hh⟩ := hr
  cases d
  · show rect.x ≤ rect.x ∧ rect.x + rect.width * frac ≤ rect.x + rect.width ∧
        rect.y ≤ rect.y ∧ rect.y + rect.height ≤ rect.y + rect.height
    exact ⟨le_refl _, by nlinarith, le_refl _, le_refl _⟩
  · show rect.x ≤ rect.x ∧ rect.x + rect.width ≤ rect.x + rect.width ∧
        rect.y ≤ rect.y ∧ rect.y + rect.height * frac ≤ rect.y + rect.height
    exact ⟨le_refl _, le_refl _, le_refl _, by nlinarith⟩

theorem split_rect_inside_right (rect : Rect) (d : SplitDirection) (frac : ℚ)
    (hr : rect.nonneg) (h0 : 0 ≤ frac) (h1 : frac ≤ 1) :
    (split_rect rect d frac).2.inside rect := by
  obtain ⟨hw, hh⟩ := hr
  cases d
  · show rect.x ≤ rect.x + rect.width * frac ∧
        rect.x + rect.width * frac + (rect.width - rect.width * frac) ≤
          rect.x + rect.width ∧
        rect.y ≤ rect.y ∧ rect.y + rect.height ≤ rect.y + rect.height
    exact ⟨by nlinarith, by nlinarith, le_refl _, le_refl _⟩
  · show rect.x ≤ rect.x ∧ rect.x + rect.width ≤ rect.x + rect.width ∧
        rect.y ≤ rect.y + rect.height * frac ∧
        rect.y + rect.height * frac + (rect.height - rect.height * frac) ≤
          rect.y + rect.height
    exact ⟨le_refl _, le_refl _, by nlinarith, by nlinarith⟩

theorem no_overlap_across_split {rect : Rect} {d : SplitDirection} {frac : ℚ}
    {a b : Rect} (ha : a.inside (split_rect rect d frac).1)
    (hb : b.inside (split_rect rect d frac).2) : ¬ a.overlaps b := by
  intro hov
  obtain ⟨o1, o2, o3, o4⟩ := hov
  obtain ⟨pa1, pa2, pa3, pa4⟩ := ha
  obtain ⟨pb1, pb2, pb3, pb4⟩ := hb
  cases d
  · have k1 : a.x + a.width ≤ rect.x + rect.width * frac := pa2
    have k2 : rect.x + rect.width * frac ≤ b.x := pb1
    linarith
  · have k1 : a.y + a.height ≤ rect.y + rect.height * frac := pa4
    have k2 : rect.y + rect.height * frac ≤ b.y := pb3
    linarith

/-- The tiling property of `compute_rects`: for a tree with ratios in
(0, 1) and a non-degenerate rect, the emitted rects stay inside the input
rect, are non-negative, their areas sum exactly to the input rect's area,
and they pairwise do not overlap. -/
theorem compute_rects_tiling (n : Node) (rect : Rect) (hv : n.valid_fracs)
    (hr : rect.nonneg) :
    (∀ p ∈ n.compute_rects rect, (p.2).inside rect ∧ (p.2).nonneg) ∧
    ((n.compute_rects rect).map (fun p => (p.2).area)).sum = rect.area ∧
    (n.compute_rects rect).Pairwise (fun a b => ¬ (a.2).overlaps b.2) := by
  induction n generalizing rect with
  | Leaf id =>
      refine ⟨?_, ?_, ?_⟩
      · intro p hp
        simp only [Node.compute_rects, List.mem_singleton] at hp
        subst hp
        exact ⟨rect_inside_refl rect, hr⟩
      · simp [Node.compute_rects]
      · simp [Node.compute_rects]
  | Split d frac left right ihl ihr =>
      obtain ⟨⟨hf0, hf1⟩, hvl, hvr⟩ := hv
      have h0 : 0 ≤ frac := le_of_lt hf0
      have h1 : frac ≤ 1 := le_of_lt hf1
      have hln := split_rect_nonneg_left rect d frac hr h0 h1
      have hrn := split_rect_nonneg_right rect d frac hr h0 h1
      obtain ⟨ih1a, ih1b, ih1c⟩ := ihl _ hvl hln
      obtain ⟨ih2a, ih2b, ih2c⟩ := ihr _ hvr hrn
      simp only [Node.compute_rects]
      refine ⟨?_, ?_, ?_⟩
      · intro p hp
        rcases List.mem_append.mp hp with hmem | hmem
        · have h3 := ih1a p hmem
          exact ⟨rect_inside_trans h3.1 (split_rect_inside_left rect d frac hr h0 h1),
            h3.2⟩
        · have h3 := ih2a p hmem
          exact ⟨rect_inside_trans h3.1 (split_rect_inside_right rect d frac hr h0 h1),
            h3.2⟩
      · rw [List.map_append, List.sum_append, ih1b, ih2b, split_rect_area]
      · rw [List.pairwise_append]
        refine ⟨ih1c, ih2c, ?_⟩
        intro a hain b hbin
        exact no_overlap_across_split (ih1a a hain).1 (ih2a b hbin).1

instance (a b : Rect) : Decidable (a.inside b) := by
  unfold Rect.inside
  infer_instance

instance (a b : Rect) : Decidable (a.overlaps b) := by
  unfold Rect.overlaps
  infer_instance

instance (a : Rect) : Decidable a.nonneg := by
  unfold Rect.nonneg
  infer_instance

/-- The three-pane layout of the spec's concrete scenario 2:
`with_initial_pane()`, then `split(1, Horizontal)`, then
`split(2, Vertical)`. -/
def sample_layout3 : SplitLayout :=
  ((SplitLayout.with_initial_pane.1.split 1 SplitDirection.Horizontal).2.split 2
    SplitDirection.Vertical).2

/-- C1: for every layout reachable by any sequence of the public
split / remove / insert / move (plain and restructuring) / cell-snapping /
snapshot-restore (and drag) operations and every window with non-negative
sizes, `compute` returns rectangles that lie inside the window, pairwise
do not overlap, and whose areas sum exactly to the window's area whenever
the tree is non-empty; when the tree is empty the result is the empty
list. -/
theorem c1_compute_tiling (l : SplitLayout) (hl : Reachable l) (ws : Size)
    (hw : 0 ≤ ws.width) (hh : 0 ≤ ws.height) :
    (∀ p ∈ l.compute ws, (p.2).inside (window_rect ws) ∧ (p.2).nonneg) ∧
    (l.compute ws).Pairwise (fun a b => ¬ (a.2).overlaps b.2) ∧
    (l.root = none → l.compute ws = []) ∧
    (∀ t, l.root = some t →
      ((l.compute ws).map (fun p => (p.2).area)).sum = ws.width * ws.height) := by
  cases hroot : l.root with
  | none =>
      have hcomp : l.compute ws = [] := by simp [SplitLayout.compute, hroot]
      refine ⟨?_, ?_, ?_, ?_⟩
      · intro p hp
        rw [hcomp] at hp
        cases hp
      · rw [hcomp]
        exact List.Pairwise.nil
      · intro _
        exact hcomp
      · intro t ht
        cases ht
  | some t =>
      have hval := reachable_valid hl t hroot
      have h1 := compute_rects_tiling t (window_rect ws) hval ⟨hw, hh⟩
      have hcomp : l.compute ws = t.compute_rects (window_rect ws) := by
        simp [SplitLayout.compute, hroot]
      refine ⟨?_, ?_, ?_, ?_⟩
      · rw [hcomp]
        exact h1.1
      · rw [hcomp]
        exact h1.2.2
      · intro hc
        cases hc
      · intro t' ht'
        injection ht' with hte
        subst hte
        rw [hcomp]
        exact h1.2.1

/-- Closed instantiation of `c1_compute_tiling` at the concrete three-pane
layout and the 800 by 600 window. -/
theorem c1_compute_tiling_witness :
    Reachable sample_layout3 ∧ (0:ℚ) ≤ (800:ℚ) ∧ (0:ℚ) ≤ (600:ℚ) ∧
    ((∀ p ∈ sample_layout3.compute (Size.mk 800 600),
        (p.2).inside (window_rect (Size.mk 800 600)) ∧ (p.2).nonneg) ∧
      (sample_layout3.compute (Size.mk 800 600)).Pairwise
        (fun a b => ¬ (a.2).overlaps b.2) ∧
      (sample_layout3.root = none → sample_layout3.compute (Size.mk 800 600) = []) ∧
      (∀ t, sample_layout3.root = some t →
        ((sample_layout3.compute (Size.mk 800 600)).map (fun p => (p.2).area)).sum =
          (Size.mk (800:ℚ) 600).width * (Size.mk (800:ℚ) 600).height)) := by
  have hreach : Reachable sample_layout3 :=
    Reachable.split 2 SplitDirection.Vertical
      (Reachable.split 1 SplitDirection.Horizontal Reachable.initial)
  exact ⟨hreach, by norm_num, by norm_num,
    c1_compute_tiling sample_layout3 hreach (Size.mk 800 600) (by norm_num) (by norm_num)⟩

theorem valid_fracs_mem {n : Node} (hv : n.valid_fracs) :
    ∀ q ∈ n.split_fracs, 0 < q ∧ q < 1 := by
  induction n with
  | Leaf id =>
      intro q hq
      simp [Node.split_fracs] at hq
  | Split d frac left right ihl ihr =>
      obtain ⟨hf, hvl, hvr⟩ := hv
      intro q hq
      simp only [Node.split_fracs, List.mem_cons, List.mem_append] at hq
      rcases hq with rfl | hmem | hmem
      · exact hf
      · exact ihl hvl q hmem
      · exact ihr hvr q hmem

/-- C2 (amended): after every public mutating operation — split, remove,
insert, plain and restructuring moves (over a window with non-negative
sizes), cell snapping, snapshot restore and border drags — every ratio
stored in any split of the tree lies strictly in (0, 1).  The fixed 0.1
floor only bounds ratios written by `drag_border`/`apply_drag`; the
same-axis chain re-equalization writes
`leaves_left / (leaves_left + leaves_right)`, which falls below 0.1 once
one side's chain outnumbers the other more than 9 to 1 (see the
counterexample). -/
theorem c2_ratio_bounds (l : SplitLayout) (hl : Reachable l) (t : Node)
    (ht : l.root = some t) : ∀ q ∈ t.split_fracs, 0 < q ∧ q < 1 :=
  valid_fracs_mem (reachable_valid hl t ht)

/-- Closed instantiation of `c2_ratio_bounds` at the three-pane layout. -/
theorem c2_ratio_bounds_witness :
    Reachable sample_layout3 ∧
    sample_layout3.root = some (Node.Split SplitDirection.Horizontal (1/2)
      (Node.Leaf 1)
      (Node.Split SplitDirection.Vertical (1/2) (Node.Leaf 2) (Node.Leaf 3))) ∧
    ∀ q ∈ (Node.Split SplitDirection.Horizontal (1/2) (Node.Leaf 1)
        (Node.Split SplitDirection.Vertical (1/2) (Node.Leaf 2)
          (Node.Leaf 3))).split_fracs, 0 < q ∧ q < 1 := by
  have hreach : Reachable sample_layout3 :=
    Reachable.split 2 SplitDirection.Vertical
      (Reachable.split 1 SplitDirection.Horizontal Reachable.initial)
  have hroot : sample_layout3.root = some (Node.Split SplitDirection.Horizontal (1/2)
      (Node.Leaf 1)
      (Node.Split SplitDirection.Vertical (1/2) (Node.Leaf 2) (Node.Leaf 3))) := rfl
  exact ⟨hreach, hroot, c2_ratio_bounds sample_layout3 hreach _ hroot⟩

/-- C2 counterexample: ten consecutive same-direction `split()` calls
starting from a single pane leave the root split's ratio at 1/11, strictly
below the claimed fixed floor 0.1 — so ratios produced by the same-axis
chain re-equalization do not stay within [min_ratio, 1 - min_ratio]. -/
theorem c2_counterexample :
    root_split_frac (split_seq SplitLayout.with_initial_pane.1
        SplitDirection.Horizontal [1, 2, 3, 4, 5, 6, 7, 8, 9, 10]) =
      some (1/11) ∧
    ¬ (min_ratio_floor ≤ (1/11 : ℚ)) := by
  constructor
  · norm_num [split_seq, SplitLayout.with_initial_pane, SplitLayout.split,
      Node.split_pane, chain_eq_frac, Node.count_chain_leaves, root_split_frac]
  · norm_num [min_ratio_floor]

/-- All splits of the tree have direction `d` and carry exactly the chain
re-equalized ratio (the invariant maintained by consecutive
same-direction splits). -/
def Node.eq_chain (d : SplitDirection) : Node → Prop
  | Node.Leaf _ => True
  | Node.Split direction frac left right =>
      direction = d ∧ frac = chain_eq_frac left right d ∧
      left.eq_chain d ∧ right.eq_chain d

theorem eq_chain_split_pane {n n' : Node} {target new_id : PaneId}
    {d : SplitDirection} (hc : n.eq_chain d)
    (h : n.split_pane target new_id d = some n') : n'.eq_chain d := by
  induction n generalizing n' with
  | Leaf id =>
      simp only [Node.split_pane] at h
      split at h
      · cases h
        refine ⟨rfl, ?_, trivial, trivial⟩
        simp [chain_eq_frac, Node.count_chain_leaves]
      · cases h
  | Split dir frac left right ihl ihr =>
      obtain ⟨hd, hf, hcl, hcr⟩ := hc
      subst hd
      simp only [Node.split_pane] at h
      cases hL : left.split_pane target new_id dir with
      | some left' =>
          rw [hL] at h
          cases h
          exact ⟨rfl, by simp, ihl hcl hL, hcr⟩
      | none =>
          rw [hL] at h
          cases hR : right.split_pane target new_id dir with
          | some right' =>
              rw [hR] at h
              cases h
              exact ⟨rfl, by simp, hcl, ihr hcr hR⟩
          | none => rw [hR] at h; cases h

theorem eq_chain_layout_split {l : SplitLayout} {d : SplitDirection} {t : Node}
    (ht : l.root = some t) (hc : t.eq_chain d) (p : PaneId) :
    ∃ t', (l.split p d).2.root = some t' ∧ t'.eq_chain d := by
  unfold SplitLayout.split
  simp only [ht]
  cases hs : t.split_pane p l.next_id d with
  | some new_root => exact ⟨new_root, by simp, eq_chain_split_pane hc hs⟩
  | none => exact ⟨t, by simp, hc⟩

theorem eq_chain_split_seq (d : SplitDirection) (ts : List PaneId)
    (l : SplitLayout) (h : ∃ t, l.root = some t ∧ t.eq_chain d) :
    ∃ t', (split_seq l d ts).root = some t' ∧ t'.eq_chain d := by
  induction ts generalizing l with
  | nil => exact h
  | cons p ts ih =>
      obtain ⟨t, ht, hc⟩ := h
      obtain ⟨t', ht', hc'⟩ := eq_chain_layout_split ht hc p
      simp only [split_seq]
      exact ih _ ⟨t', ht', hc'⟩

theorem dir_extent_split_left (d : SplitDirection) (rect : Rect) (frac : ℚ) :
    dir_extent d (split_rect rect d frac).1 = dir_extent d rect * frac := by
  cases d <;> rfl

theorem dir_extent_split_right (d : SplitDirection) (rect : Rect) (frac : ℚ) :
    dir_extent d (split_rect rect d frac).2 =
      dir_extent d rect - dir_extent d rect * frac := by
  cases d <;> rfl

theorem eq_chain_shares {n : Node} {d : SplitDirection} (hc : n.eq_chain d) :
    ∀ (rect : Rect), ∀ p ∈ n.compute_rects rect,
      dir_extent d p.2 = dir_extent d rect / (n.count_chain_leaves d : ℚ) := by
  induction n with
  | Leaf id =>
      intro rect p hp
      simp only [Node.compute_rects, List.mem_singleton] at hp
      subst hp
      simp [Node.count_chain_leaves]
  | Split dir frac left right ihl ihr =>
      obtain ⟨hd, hf, hcl, hcr⟩ := hc
      subst hd
      intro rect p hp
      have ha := count_chain_leaves_pos left dir
      have hb := count_chain_leaves_pos right dir
      have haq : (0:ℚ) < (left.count_chain_leaves dir : ℚ) := by exact_mod_cast ha
      have hbq : (0:ℚ) < (right.count_chain_leaves dir : ℚ) := by exact_mod_cast hb
      have hcount : (Node.Split dir frac left right).count_chain_leaves dir =
          left.count_chain_leaves dir + right.count_chain_leaves dir := by
        simp [Node.count_chain_leaves]
      have hfrac : frac = (left.count_chain_leaves dir : ℚ) /
          ((left.count_chain_leaves dir : ℚ) + (right.count_chain_leaves dir : ℚ)) := by
        rw [hf]
        unfold chain_eq_frac
        push_cast
        rfl
      simp only [Node.compute_rects] at hp
      rcases List.mem_append.mp hp with hmem | hmem
      · have hrec := ihl hcl _ p hmem
        rw [hrec, dir_extent_split_left, hcount, hfrac]
        have hs : (0:ℚ) < (left.count_chain_leaves dir : ℚ) +
            (right.count_chain_leaves dir : ℚ) := by linarith
        push_cast
        field_simp
        ring
      · have hrec := ihr hcr _ p hmem
        rw [hrec, dir_extent_split_right, hcount, hfrac]
        have hs : (0:ℚ) < (left.count_chain_leaves dir : ℚ) +
            (right.count_chain_leaves dir : ℚ) := by linarith
        push_cast
        field_simp
        ring

/-- C5: after any sequence of same-direction `split()` calls starting from
the single-pane layout, the tree is a same-axis chain in which every
split's ratio equals leaves_on_left / (leaves_on_left + leaves_on_right)
(counted through same-axis splits only), and consequently every leaf's
computed rect occupies exactly window_extent / N along that axis, where N
is the number of leaves. -/
theorem c5_equal_chain (d : SplitDirection) (ts : List PaneId) (ws : Size) :
    ∃ t, (split_seq SplitLayout.with_initial_pane.1 d ts).root = some t ∧
      t.eq_chain d ∧
      ∀ p ∈ (split_seq SplitLayout.with_initial_pane.1 d ts).compute ws,
        dir_extent d p.2 =
          dir_extent d (window_rect ws) / (t.count_chain_leaves d : ℚ) := by
  obtain ⟨t, ht, hc⟩ :=
    eq_chain_split_seq d ts SplitLayout.with_initial_pane.1 ⟨Node.Leaf 1, rfl, trivial⟩
  refine ⟨t, ht, hc, ?_⟩
  intro p hp
  have hcomp : (split_seq SplitLayout.with_initial_pane.1 d ts).compute ws =
      t.compute_rects (window_rect ws) := by
    simp [SplitLayout.compute, ht]
  rw [hcomp] at hp
  exact eq_chain_shares hc _ p hp

/-- Closed instantiation of `c5_equal_chain`: three splits to the right,
four leaves, each a quarter of the window wide. -/
theorem c5_equal_chain_witness :
    ∃ t, (split_seq SplitLayout.with_initial_pane.1 SplitDirection.Horizontal
        [1, 2, 3]).root = some t ∧
      t.eq_chain SplitDirection.Horizontal ∧
      ∀ p ∈ (split_seq SplitLayout.with_initial_pane.1 SplitDirection.Horizontal
          [1, 2, 3]).compute (Size.mk 800 600),
        dir_extent SplitDirection.Horizontal p.2 =
          dir_extent SplitDirection.Horizontal (window_rect (Size.mk 800 600)) /
            (t.count_chain_leaves SplitDirection.Horizontal : ℚ) :=
  c5_equal_chain SplitDirection.Horizontal [1, 2, 3] (Size.mk 800 600)

/-- C6: from `with_initial_pane()` at an 800 by 600 window,
`split(1, Horizontal)` returns pane 2, `split(2, Vertical)` returns
pane 3, and `compute` yields exactly pane1 = (0,0,400,600),
pane2 = (400,0,400,300), pane3 = (400,300,400,300). -/
theorem c6_concrete_scenario :
    (SplitLayout.with_initial_pane.1.split 1 SplitDirection.Horizontal).1 = 2 ∧
    ((SplitLayout.with_initial_pane.1.split 1 SplitDirection.Horizontal).2.split 2
      SplitDirection.Vertical).1 = 3 ∧
    sample_layout3.compute (Size.mk 800 600) =
      [(1, Rect.mk 0 0 400 600), (2, Rect.mk 400 0 400 300),
       (3, Rect.mk 400 300 400 300)] := by
  refine ⟨rfl, rfl, ?_⟩
  have hne : SplitDirection.Horizontal ≠ SplitDirection.Vertical := fun hcon =>
    by cases hcon
  have hne2 : SplitDirection.Vertical ≠ SplitDirection.Horizontal := fun hcon =>
    by cases hcon
  norm_num [sample_layout3, SplitLayout.with_initial_pane, SplitLayout.split,
    Node.split_pane, SplitLayout.compute, Node.compute_rects, split_rect,
    window_rect, chain_eq_frac, Node.count_chain_leaves, hne, hne2]

/-- C9: `end_drag` sets the active drag path to `none` and changes nothing
else — tree, next_id and last_window_size are untouched, so ratio edits
made during the drag are never reverted. -/
theorem c9_end_drag (l : SplitLayout) :
    l.end_drag.active_drag = none ∧ l.end_drag.root = l.root ∧
    l.end_drag.next_id = l.next_id ∧
    l.end_drag.last_window_size = l.last_window_size :=
  ⟨rfl, rfl, rfl, rfl⟩

/-- C10: for every layout, drop zone and window size, moving a pane onto
itself is rejected before any mutation: both `move_pane` and
`restructure_move_pane` return false and leave the layout unchanged. -/
theorem c10_self_move (l : SplitLayout) (p : PaneId) (zone : DropZone)
    (ws : Size) :
    l.move_pane p p zone = (false, l) ∧
    l.restructure_move_pane p p zone ws = (false, l) := by
  constructor
  · simp [SplitLayout.move_pane]
  · simp [SplitLayout.restructure_move_pane]

theorem split_pane_not_found {n : Node} {p new_id : PaneId} {d : SplitDirection}
    (hp : ¬ p ∈ n.pane_ids) : n.split_pane p new_id d = none := by
  induction n with
  | Leaf id =>
      have hne : id ≠ p := by
        intro he
        exact hp (by simp [Node.pane_ids, he])
      simp [Node.split_pane, hne]
  | Split dir frac left right ihl ihr =>
      simp only [Node.pane_ids, List.mem_append] at hp
      push_neg at hp
      simp only [Node.split_pane, ihl hp.1, ihr hp.2]

theorem remove_pane_not_found {n : Node} {p : PaneId}
    (hp : ¬ p ∈ n.pane_ids) : n.remove_pane p = none := by
  induction n with
  | Leaf id =>
      have hne : id ≠ p := by
        intro he
        exact hp (by simp [Node.pane_ids, he])
      simp [Node.remove_pane, hne]
  | Split dir frac left right ihl ihr =>
      simp only [Node.pane_ids, List.mem_append] at hp
      push_neg at hp
      simp only [Node.remove_pane, ihl hp.1, ihr hp.2]

theorem insert_pane_at_not_found {n : Node} {p np : PaneId} {d : SplitDirection}
    {f : Bool} (hp : ¬ p ∈ n.pane_ids) : n.insert_pane_at p np d f = none := by
  induction n with
  | Leaf id =>
      have hne : id ≠ p := by
        intro he
        exact hp (by simp [Node.pane_ids, he])
      simp [Node.insert_pane_at, hne]
  | Split dir frac left right ihl ihr =>
      simp only [Node.pane_ids, List.mem_append] at hp
      push_neg at hp
      simp only [Node.insert_pane_at, ihl hp.1, ihr hp.2]

/-- C4 (amended): when the target PaneId is absent from the tree, `split`
still allocates and returns the fresh id but leaves the tree unchanged,
`remove` and `insert_pane` are pure no-ops returning false, and a
directional `move_pane` whose source is absent returns false with no
mutation.  The original claim's universal no-mutation guarantee is false:
`move_pane` with zone Center never checks existence (the sentinel swap
renames the present pane when the other is absent), and a directional
`move_pane` with present source but absent target removes the source and
returns false (see the counterexample). -/
theorem c4_missing_pane (l : SplitLayout) (t : Node) (p : PaneId)
    (hr : l.root = some t) (hp : ¬ p ∈ t.pane_ids) :
    (∀ d, (l.split p d).1 = l.next_id ∧ (l.split p d).2.root = l.root ∧
      (l.split p d).2.next_id = l.next_id + 1) ∧
    l.remove p = l ∧
    (∀ np d f, l.insert_pane p np d f = (false, l)) ∧
    (∀ q z, z ≠ DropZone.Center → l.move_pane p q z = (false, l)) := by
  refine ⟨?_, ?_, ?_, ?_⟩
  · intro d
    unfold SplitLayout.split
    simp [hr, split_pane_not_found hp]
  · unfold SplitLayout.remove
    simp [hr, remove_pane_not_found hp]
  · intro np d f
    unfold SplitLayout.insert_pane
    simp [hr, insert_pane_at_not_found hp]
  · intro q z hz
    unfold SplitLayout.move_pane
    by_cases hpq : p = q
    · simp [hpq]
    · simp [hpq, hr, hz, remove_pane_not_found hp]

/-- A two-pane layout (panes 1 and 2 side by side) for concrete checks. -/
def pair_layout : SplitLayout :=
  { root := some (Node.Split SplitDirection.Horizontal (1/2) (Node.Leaf 1)
      (Node.Leaf 2)),
    next_id := 3, active_drag := none, last_window_size := none }

/-- Closed instantiation of `c4_missing_pane` at the two-pane layout and
the absent pane 99. -/
theorem c4_missing_pane_witness :
    pair_layout.root = some (Node.Split SplitDirection.Horizontal (1/2)
      (Node.Leaf 1) (Node.Leaf 2)) ∧
    (¬ (99:PaneId) ∈ (Node.Split SplitDirection.Horizontal (1/2) (Node.Leaf 1)
      (Node.Leaf 2)).pane_ids) ∧
    ((∀ d, (pair_layout.split 99 d).1 = pair_layout.next_id ∧
        (pair_layout.split 99 d).2.root = pair_layout.root ∧
        (pair_layout.split 99 d).2.next_id = pair_layout.next_id + 1) ∧
      pair_layout.remove 99 = pair_layout ∧
      (∀ np d f, pair_layout.insert_pane 99 np d f = (false, pair_layout)) ∧
      (∀ q z, z ≠ DropZone.Center →
        pair_layout.move_pane 99 q z = (false, pair_layout))) := by
  have hr : pair_layout.root = some (Node.Split SplitDirection.Horizontal (1/2)
      (Node.Leaf 1) (Node.Leaf 2)) := rfl
  have hp : ¬ (99:PaneId) ∈ (Node.Split SplitDirection.Horizontal (1/2)
      (Node.Leaf 1) (Node.Leaf 2)).pane_ids := by
    simp [Node.pane_ids]
  exact ⟨hr, hp, c4_missing_pane pair_layout _ 99 hr hp⟩

/-- C4 counterexample: on the two-pane layout, a directional
`move_pane(1, 3, Left)` with absent target 3 returns false yet removes
pane 1 (the root collapses to Leaf 2), and `move_pane(3, 1, Center)` with
absent source 3 returns true and renames pane 1 to 3 — so operations on a
nonexistent PaneId are not always mutation-free. -/
theorem c4_counterexample :
    (¬ (3:PaneId) ∈ pair_layout.pane_ids) ∧
    pair_layout.move_pane 1 3 DropZone.Left =
      (false, { pair_layout with root := some (Node.Leaf 2) }) ∧
    some (Node.Leaf 2) ≠ pair_layout.root ∧
    pair_layout.move_pane 3 1 DropZone.Center =
      (true, { pair_layout with root := some (Node.Split
        SplitDirection.Horizontal (1/2) (Node.Leaf 3) (Node.Leaf 2)) }) := by
  refine ⟨?_, rfl, ?_, rfl⟩
  · simp [pair_layout, SplitLayout.pane_ids, Node.pane_ids]
  · intro hcon
    simp [pair_layout] at hcon

/-- C7: for every non-empty layout, restoring the snapshot reproduces
exactly the same tree (shape, directions, ratios, PaneIds), and the
restored layout's next_id is the snapshot's maximum PaneId plus one. -/
theorem c7_snapshot_roundtrip (l : SplitLayout) (s : LayoutSnapshot)
    (h : l.snapshot = some s) :
    (SplitLayout.from_snapshot s).root = l.root ∧
    (SplitLayout.from_snapshot s).next_id = max_id_in_snapshot s + 1 := by
  unfold SplitLayout.snapshot at h
  cases hr : l.root with
  | none => rw [hr] at h; simp at h
  | some t =>
      rw [hr] at h
      have h2 : node_to_snapshot t = s := by simpa using h
      subst h2
      constructor
      · show some (snapshot_to_node (node_to_snapshot t)) = some t
        rw [snapshot_node_roundtrip]
      · rfl

/-- Closed instantiation of `c7_snapshot_roundtrip` at the three-pane
layout. -/
theorem c7_snapshot_roundtrip_witness :
    sample_layout3.snapshot = some (LayoutSnapshot.Split
      SplitDirection.Horizontal (1/2) (LayoutSnapshot.Leaf 1)
      (LayoutSnapshot.Split SplitDirection.Vertical (1/2)
        (LayoutSnapshot.Leaf 2) (LayoutSnapshot.Leaf 3))) ∧
    ((SplitLayout.from_snapshot (LayoutSnapshot.Split
        SplitDirection.Horizontal (1/2) (LayoutSnapshot.Leaf 1)
        (LayoutSnapshot.Split SplitDirection.Vertical (1/2)
          (LayoutSnapshot.Leaf 2) (LayoutSnapshot.Leaf 3)))).root =
      sample_layout3.root ∧
     (SplitLayout.from_snapshot (LayoutSnapshot.Split
        SplitDirection.Horizontal (1/2) (LayoutSnapshot.Leaf 1)
        (LayoutSnapshot.Split SplitDirection.Vertical (1/2)
          (LayoutSnapshot.Leaf 2) (LayoutSnapshot.Leaf 3)))).next_id =
      max_id_in_snapshot (LayoutSnapshot.Split
        SplitDirection.Horizontal (1/2) (LayoutSnapshot.Leaf 1)
        (LayoutSnapshot.Split SplitDirection.Vertical (1/2)
          (LayoutSnapshot.Leaf 2) (LayoutSnapshot.Leaf 3))) + 1) := by
  have hs : sample_layout3.snapshot = some (LayoutSnapshot.Split
      SplitDirection.Horizontal (1/2) (LayoutSnapshot.Leaf 1)
      (LayoutSnapshot.Split SplitDirection.Vertical (1/2)
        (LayoutSnapshot.Leaf 2) (LayoutSnapshot.Leaf 3))) := rfl
  exact ⟨hs, c7_snapshot_roundtrip sample_layout3 _ hs⟩

theorem frac_at_apply_drag (path : List Bool) (n : Node) (rect : Rect)
    (position : Vec2) (min_r : ℚ) (hmr : min_r ≤ 1 - min_r) (q : ℚ)
    (h : (n.apply_drag rect path position min_r).frac_at path = some q) :
    min_r ≤ q ∧ q ≤ 1 - min_r := by
  induction path generalizing n rect with
  | nil =>
      cases n with
      | Leaf id => simp [Node.apply_drag, Node.frac_at] at h
      | Split dir frac left right =>
          simp only [Node.apply_drag, Node.frac_at, Option.some.injEq] at h
          subst h
          exact ⟨le_max_left _ _, max_le hmr (min_le_right _ _)⟩
  | cons b rest ih =>
      cases n with
      | Leaf id => simp [Node.apply_drag, Node.frac_at] at h
      | Split dir frac left right =>
          cases b
          · simp only [Node.apply_drag, Bool.false_eq_true, if_false,
              Node.frac_at] at h
            exact ih _ _ h
          · simp only [Node.apply_drag, if_true, Node.frac_at] at h
            exact ih _ _ h

/-- C8: after a `drag_border` call on a layout with an active drag path, a
root and a last window size, the ratio stored at the dragged split is
clamped to [min_ratio, 1 - min_ratio] with min_ratio = 0.1. -/
theorem c8_drag_clamped (l : SplitLayout) (path : List Bool) (root : Node)
    (ws : Size) (position : Vec2) (q : ℚ)
    (ha : l.active_drag = some path) (hr : l.root = some root)
    (hw : l.last_window_size = some ws) (t' : Node)
    (ht' : (l.drag_border position).root = some t')
    (hq : t'.frac_at path = some q) :
    min_ratio_floor ≤ q ∧ q ≤ 1 - min_ratio_floor := by
  unfold SplitLayout.drag_border SplitLayout.drag_apply at ht'
  simp only [ha, hr, hw, Option.some.injEq] at ht'
  subst ht'
  exact frac_at_apply_drag path root (window_rect ws) position min_ratio_floor
    (by norm_num [min_ratio_floor]) q hq

/-- The two-pane 800 by 600 layout with an active drag on the root border,
used for the concrete drag scenarios. -/
def drag_layout2 : SplitLayout :=
  { root := some (Node.Split SplitDirection.Horizontal (1/2) (Node.Leaf 1)
      (Node.Leaf 2)),
    next_id := 3, active_drag := some [],
    last_window_size := some (Size.mk 800 600) }

/-- Closed instantiation of `c8_drag_clamped`: dragging the border of the
two-pane 800 by 600 layout to x = 0 clamps the ratio to exactly 0.1, so
pane 1 keeps width 800 times 0.1 = 80, never 0. -/
theorem c8_drag_clamped_witness :
    drag_layout2.active_drag = some [] ∧
    (drag_layout2.drag_border (Vec2.mk 0 300)).root =
      some (Node.Split SplitDirection.Horizontal (1/10) (Node.Leaf 1)
        (Node.Leaf 2)) ∧
    (min_ratio_floor ≤ (1/10:ℚ) ∧ (1/10:ℚ) ≤ 1 - min_ratio_floor) ∧
    (drag_layout2.drag_border (Vec2.mk 0 300)).compute (Size.mk 800 600) =
      [(1, Rect.mk 0 0 80 600), (2, Rect.mk 80 0 720 600)] := by
  have hroot : (drag_layout2.drag_border (Vec2.mk 0 300)).root =
      some (Node.Split SplitDirection.Horizontal (1/10) (Node.Leaf 1)
        (Node.Leaf 2)) := by
    norm_num [drag_layout2, SplitLayout.drag_border, SplitLayout.drag_apply,
      Node.apply_drag, window_rect, min_ratio_floor]
  refine ⟨rfl, hroot, ?_, ?_⟩
  · exact c8_drag_clamped drag_layout2 [] (Node.Split SplitDirection.Horizontal
      (1/2) (Node.Leaf 1) (Node.Leaf 2)) (Size.mk 800 600) (Vec2.mk 0 300)
      (1/10) rfl rfl rfl _ hroot rfl
  · simp only [SplitLayout.compute, hroot]
    norm_num [Node.compute_rects, split_rect, window_rect]

theorem partition_at_sizes {d : SplitDirection} {pos : ℚ} :
    ∀ {rects lg rg : List (PaneId × Rect)},
      partition_at d pos rects = some (lg, rg) →
      lg.length + rg.length = rects.length := by
  intro rects
  induction rects with
  | nil =>
      intro lg rg h
      simp only [partition_at, Option.some.injEq, Prod.mk.injEq] at h
      obtain ⟨h1, h2⟩ := h
      subst h1
      subst h2
      simp
  | cons p rest ih =>
      intro lg rg h
      simp only [partition_at] at h
      split at h
      · cases hrec : partition_at d pos rest with
        | none => rw [hrec] at h; cases h
        | some g =>
            obtain ⟨g1, g2⟩ := g
            rw [hrec] at h
            simp only [Option.map_some', Option.some.injEq, Prod.mk.injEq] at h
            obtain ⟨h1, h2⟩ := h
            subst h1
            subst h2
            have hlen := ih hrec
            simp only [List.length_cons]
            omega
      · split at h
        · cases hrec : partition_at d pos rest with
          | none => rw [hrec] at h; cases h
          | some g =>
              obtain ⟨g1, g2⟩ := g
              rw [hrec] at h
              simp only [Option.map_some', Option.some.injEq, Prod.mk.injEq] at h
              obtain ⟨h1, h2⟩ := h
              subst h1
              subst h2
              have hlen := ih hrec
              simp only [List.length_cons]
              omega
        · cases h

theorem first_clean_split_sizes {pane_rects : List (PaneId × Rect)}
    {d : SplitDirection} {bmin bmax : ℚ} :
    ∀ {cands : List ℚ} {lg rg : List (PaneId × Rect)} {q : ℚ},
      first_clean_split pane_rects d bmin bmax cands = some (lg, rg, q) →
      lg ≠ [] ∧ rg ≠ [] ∧ lg.length + rg.length = pane_rects.length := by
  intro cands
  induction cands with
  | nil =>
      intro lg rg q h
      simp [first_clean_split] at h
  | cons pos more ih =>
      intro lg rg q h
      simp only [first_clean_split] at h
      cases hp : partition_at d pos pane_rects with
      | some groups =>
          obtain ⟨g1, g2⟩ := groups
          rw [hp] at h
          simp only [] at h
          split at h
          · rename_i hcond
            simp only [Option.some.injEq, Prod.mk.injEq] at h
            obtain ⟨h1, h2, h3⟩ := h
            subst h1
            subst h2
            exact ⟨hcond.1, hcond.2, partition_at_sizes hp⟩
          · exact ih h
      | none =>
          rw [hp] at h
          simp only [] at h
          exact ih h

theorem try_split_sizes {rects : List (PaneId × Rect)} {d : SplitDirection}
    {lg rg : List (PaneId × Rect)} {q : ℚ}
    (h : try_split rects d = some (lg, rg, q)) :
    lg ≠ [] ∧ rg ≠ [] ∧ lg.length + rg.length = rects.length := by
  cases rects with
  | nil => simp [try_split] at h
  | cons p0 rest =>
      cases rest with
      | nil => simp [try_split] at h
      | cons p1 rest2 =>
          simp only [try_split] at h
          exact first_clean_split_sizes h

theorem build_tree_fuel_isSome :
    ∀ (fuel : ℕ) (rects : List (PaneId × Rect)) (primary : SplitDirection),
      rects ≠ [] → rects.length ≤ fuel →
      ∃ t, build_tree_fuel fuel rects primary = some t := by
  intro fuel
  induction fuel with
  | zero =>
      intro rects primary hne hlen
      cases rects with
      | nil => exact absurd rfl hne
      | cons p rest => simp at hlen
  | succ fuel ih =>
      intro rects primary hne hlen
      cases rects with
      | nil => exact absurd rfl hne
      | cons p1 tail =>
          cases tail with
          | nil => exact ⟨Node.Leaf p1.1, rfl⟩
          | cons p2 rest =>
              simp only [build_tree_fuel]
              cases h1 : try_split (p1 :: p2 :: rest) primary with
              | some g =>
                  obtain ⟨lg, rg, q⟩ := g
                  obtain ⟨hlne, hrne, hsum⟩ := try_split_sizes h1
                  have hlpos : 0 < lg.length := List.length_pos.mpr hlne
                  have hrpos : 0 < rg.length := List.length_pos.mpr hrne
                  have hlen' : (p1 :: p2 :: rest).length ≤ fuel + 1 := hlen
                  simp only [List.length_cons] at hlen' hsum
                  obtain ⟨tl, htl⟩ := ih lg primary hlne (by omega)
                  obtain ⟨tr, htr⟩ := ih rg primary hrne (by omega)
                  exact ⟨Node.Split primary q tl tr, by simp [htl, htr]⟩
              | none =>
                  generalize (match primary with
                    | SplitDirection.Horizontal => SplitDirection.Vertical
                    | SplitDirection.Vertical => SplitDirection.Horizontal) = sec
                  cases h2 : try_split (p1 :: p2 :: rest) sec with
                  | some g =>
                      obtain ⟨lg, rg, q⟩ := g
                      obtain ⟨hlne, hrne, hsum⟩ := try_split_sizes h2
                      have hlpos : 0 < lg.length := List.length_pos.mpr hlne
                      have hrpos : 0 < rg.length := List.length_pos.mpr hrne
                      have hlen' : (p1 :: p2 :: rest).length ≤ fuel + 1 := hlen
                      simp only [List.length_cons] at hlen' hsum
                      obtain ⟨tl, htl⟩ := ih lg primary hlne (by omega)
                      obtain ⟨tr, htr⟩ := ih rg primary hrne (by omega)
                      exact ⟨Node.Split sec q tl tr, by simp [htl, htr]⟩
                  | none =>
                      exact ⟨(p2 :: rest).foldl
                        (fun node p => Node.Split primary (1/2) node
                          (Node.Leaf p.1)) (Node.Leaf p1.1), rfl⟩

/-- The three-pane tree of the concrete 800 by 600 scenario (the root of
`sample_layout3`). -/
def sample_tree3 : Node :=
  Node.Split SplitDirection.Horizontal (1/2) (Node.Leaf 1)
    (Node.Split SplitDirection.Vertical (1/2) (Node.Leaf 2) (Node.Leaf 3))

/-- A same-axis chain of three panes with ratios 1/2 and 1/2. -/
def chain3_tree : Node :=
  Node.Split SplitDirection.Horizontal (1/2) (Node.Leaf 1)
    (Node.Split SplitDirection.Horizontal (1/2) (Node.Leaf 2) (Node.Leaf 3))

/-- A region only 1.6 logical pixels wide, so pane edges land within the
0.5 tolerance `layout_eps` of `try_split`. -/
def tiny_region : Rect := Rect.mk 0 0 (8/5) 1

/-- C3 (amended): `build_tree_from_rects` always returns `some` tree for a
non-empty rect set — and at standard scale the round trip through
`compute_rects` reproduces the tree exactly (here the three-pane 800 by
600 example rebuilds to the identical tree, hence the identical tiling).
The round trip does not hold for every region: when pane edges fall
within the fixed 0.5 tolerance the rebuilt tiling differs (see the
counterexample). -/
theorem c3_rebuild_roundtrip (rects : List (PaneId × Rect))
    (primary : SplitDirection) (hne : rects ≠ []) :
    (∃ t, build_tree_from_rects rects primary = some t) ∧
    build_tree_from_rects (sample_tree3.compute_rects (Rect.mk 0 0 800 600))
      SplitDirection.Horizontal = some sample_tree3 := by
  constructor
  · exact build_tree_fuel_isSome rects.length rects primary hne (le_refl _)
  · with_unfolding_all decide

/-- Closed instantiation of `c3_rebuild_roundtrip` at a one-element rect
set. -/
theorem c3_rebuild_roundtrip_witness :
    ([((1:PaneId), Rect.mk 0 0 800 600)] ≠ ([] : List (PaneId × Rect))) ∧
    ((∃ t, build_tree_from_rects [((1:PaneId), Rect.mk 0 0 800 600)]
        SplitDirection.Horizontal = some t) ∧
      build_tree_from_rects (sample_tree3.compute_rects (Rect.mk 0 0 800 600))
        SplitDirection.Horizontal = some sample_tree3) :=
  ⟨by simp, c3_rebuild_roundtrip [((1:PaneId), Rect.mk 0 0 800 600)]
    SplitDirection.Horizontal (by simp)⟩

/-- C3 counterexample: over a region 1.6 px wide, the chain of three
panes tiles as (0,0,0.8,1), (0.8,0,0.4,1), (1.2,0,0.4,1); the edge at 1.2
is merged away (within 0.5 of the bounding box edge) and pane 2 is
misclassified at the candidate 0.8, so `build_tree_from_rects` rebuilds a
different tree whose tiling does not contain pane 1's original rect —
the round trip fails for this valid tree and region. -/
theorem c3_counterexample :
    build_tree_from_rects (chain3_tree.compute_rects tiny_region)
        SplitDirection.Horizontal =
      some (Node.Split SplitDirection.Horizontal (1/2)
        (Node.Split SplitDirection.Horizontal (1/2) (Node.Leaf 1)
          (Node.Leaf 2)) (Node.Leaf 3)) ∧
    (1, Rect.mk 0 0 (4/5) 1) ∈ chain3_tree.compute_rects tiny_region ∧
    ¬ (1, Rect.mk 0 0 (4/5) 1) ∈
      (Node.Split SplitDirection.Horizontal (1/2)
        (Node.Split SplitDirection.Horizontal (1/2) (Node.Leaf 1)
          (Node.Leaf 2)) (Node.Leaf 3)).compute_rects tiny_region := by
  with_unfolding_all decide
